import Mathlib

/-
Verification of the dual bound-propagation core of convex_adversarial
(src/convex_adversarial/dual.py) against its specification.

Shallow embedding conventions:
* Scalars are rationals (the source uses floating-point tensors; all claims
  under study are about algebraic structure, not rounding).
* Tensors are flattened over their feature dimensions and the batch dimension
  is specialised to a single example: a per-activation tensor is a function
  V = Nat -> Rat, a direction-indexed certificate (batch, dirs, features)
  is Mx = Nat -> Nat -> Rat (row = direction index).  Shape bookkeeping is
  carried as explicit Nat dimensions; sums and norms truncate at those
  dimensions, mirroring the flattened views taken in the source.
* Stateful Python objects become records; mutating methods become functions
  returning the updated record; Python exceptions become Except String.
-/

namespace ConvexAdv

/-- Flattened per-activation tensor (one batch element). -/
abbrev V : Type := ℕ → ℚ

/-- Direction-indexed certificate tensor: row index is the dual direction. -/
abbrev Mx : Type := ℕ → ℕ → ℚ

def zeroV : V := fun _ => 0

def addV (u v : V) : V := fun i => u i + v i

def negV (v : V) : V := fun i => -(v i)

def zeroM : Mx := fun _ _ => 0

/-- Inner product of the first n coordinates (a flattened matmul row). -/
def dot (n : ℕ) (u v : V) : ℚ := (Finset.range n).sum (fun i => u i * v i)

/-- L1 norm of the first n coordinates (abs().sum() in the source). -/
def l1norm (n : ℕ) (v : V) : ℚ := (Finset.range n).sum (fun i => |v i|)

/-- Matrix-vector product, inputs truncated at dimension n (F.linear(x, W)). -/
def matvec (W : Mx) (n : ℕ) (v : V) : V :=
  fun i => (Finset.range n).sum (fun j => W i j * v j)

/-- Transposed matrix-vector product over m rows (F.linear(x, W.t())). -/
def matvecT (W : Mx) (m : ℕ) (v : V) : V :=
  fun j => (Finset.range m).sum (fun i => W i j * v i)

def headV (l : List V) : V := l.headD zeroV

def lastV (l : List V) : V := l.getLastD zeroV

def headM (l : List Mx) : Mx := l.headD zeroM

def lastM (l : List Mx) : Mx := l.getLastD zeroM

/-- Identity certificate basis: torch.eye(n) viewed as n directions. -/
def eyeM (n : ℕ) : Mx := fun r c => if r = c ∧ r < n then 1 else 0

/- ------------------------------------------------------------------
ReLU operating-region classification (DualNetBounds.__init__, lines 521-524):
  d = (zl >= -1e-5).type_as(X)
  I = ((zu > 1e-5) * (zl < -1e-5))
  if I.sum() > 0: d[I] += zu[I]/(zu[I] - zl[I])
The guard "if I.sum() > 0" only skips the in-place add when the unstable set
is empty; the added term is zero off I, so the pointwise value is as below.
------------------------------------------------------------------ -/

/-- The numerical tolerance 1e-5 used by the source. -/
def tol : ℚ := 1 / 100000

/-- Unstable-activation mask I (line 522). -/
def reluI (zl zu : V) : ℕ → Bool :=
  fun j => decide (tol < zu j) && decide (zl j < -tol)

/-- Per-activation slope d (lines 521-524). -/
def reluD (zl zu : V) : V :=
  fun j => (if -tol ≤ zl j then (1 : ℚ) else 0) +
    (if reluI zl zu j then zu j / (zu j - zl j) else 0)

/- ------------------------------------------------------------------
Chunked convolution helpers (dual.py lines 137-154).  The batch dimension
is a list; the external primitive F.conv2d (weight, stride and padding
already applied) is an argument acting on whole batches.  torch.cat is
list concatenation.  Both source helpers have the same minibatching loop
with batch_size = 10000.
------------------------------------------------------------------ -/

/-- Minibatched inputs to conv2d (dual.py lines 137-145). -/
def conv2d {α : Type} (prim : List α → List α) : List α → List α
  | [] => []
  | a :: x =>
    prim ((a :: x).take 10000) ++ conv2d prim ((a :: x).drop 10000)
termination_by x => x.length
decreasing_by
  simp only [List.length_drop, List.length_cons]
  omega

/-- Minibatched inputs to conv_transpose2d (dual.py lines 147-154). -/
def conv_transpose2d {α : Type} (prim : List α → List α) : List α → List α
  | [] => []
  | a :: x =>
    prim ((a :: x).take 10000) ++ conv_transpose2d prim ((a :: x).drop 10000)
termination_by x => x.length
decreasing_by
  simp only [List.length_drop, List.length_cons]
  omega

/- ------------------------------------------------------------------
Dual operator states.  Each Python class of dual.py becomes a record whose
fields are the attributes the class stores; growing history lists are Lean
lists; Variable/detach wrappers are semantic no-ops and are dropped.
------------------------------------------------------------------ -/

/-- InfBall (dual.py lines 54-77): exact uncertainty-set representative.
n is numel(X[0]); nu_x starts at [X]; nu_1 starts at the identity basis. -/
structure InfBall where
  n : ℕ
  epsilon : ℚ
  nu_x : List V
  nu_1 : List Mx

/-- InfBallProj (dual.py lines 79-99): randomized k-direction representative.
The Cauchy sample is stored in nu (the randomness is an explicit input). -/
structure InfBallProj where
  n : ℕ
  k : ℕ
  epsilon : ℚ
  nu_x : List V
  nu : List Mx

/-- DualLinear state (dual.py lines 101-134); also the state of DualConv2d
(lines 156-188), which in this flattened embedding carries the linear map the
convolution denotes.  bias[0] is Aff.full_bias(layer, out_features), the bias
expanded over the output feature shape; in the flattened model it is the bias
vector itself (Aff is not part of the sources under study; the expansion is
modelled from the spec of section 4.2). -/
structure DualLinear where
  inF : ℕ
  outF : ℕ
  W : Mx
  bias : Option (List V)

/-- DualReLU state (dual.py lines 214-277).  inds is I_ind: the ordered list
of coordinates where the unstable mask I holds (batch index dropped: one
batch element). -/
structure DualReLU where
  n : ℕ
  uI : ℕ → Bool
  d : V
  zl : V
  Iempty : Bool
  inds : List ℕ
  nus : List Mx

/-- DualReLUProj state (dual.py lines 280-338). -/
structure DualReLUProj where
  n : ℕ
  k : ℕ
  uI : ℕ → Bool
  d : V
  zl : V
  Iempty : Bool
  nus : List Mx
  nu_ones : List V

/-- DualBatchNorm2d state (dual.py lines 413-456).  D and the initial ds are
the per-feature diagonal scale and shift already expanded over the feature
map (the source broadcasts per-channel values; the flattened embedding takes
the expansion as given since the claims under study only concern the history
list and the layer dispatch). -/
structure DualBatchNorm2d where
  n : ℕ
  D : V
  ds : List V

/-- The dual operators DualDense may own per sub-layer: DualConv2d,
DualLinear, DualSequential or None (dual.py lines 343-355 construct exactly
these). -/
inductive SimpleDual where
  | lin (s : DualLinear)
  | convS (s : DualLinear)
  | seqS

/-- DualDense state (dual.py lines 340-410): the per-sub-layer duals and the
transpose routing list dual_ts (rewired by later DualDense constructions). -/
structure DualDense where
  duals : List (Option SimpleDual)
  dual_ts : List (Option SimpleDual)

/-- The closed sum of dual-operator kinds built by DualNetBounds. -/
inductive DualOp where
  | ball (s : InfBall)
  | ballProj (s : InfBallProj)
  | linear (s : DualLinear)
  | convOp (s : DualLinear)
  | reluOp (s : DualReLU)
  | reluProj (s : DualReLUProj)
  | reshapeOp
  | seqOp
  | bnOp (s : DualBatchNorm2d)
  | denseOp (s : DualDense)

/- ------------------------------------------------------------------
Forward affine maps (the .affine methods).
------------------------------------------------------------------ -/

/-- Forward affine map of an inner dense dual (weights only, no bias). -/
def simpleAffineV (w : SimpleDual) (x : V) : V :=
  match w with
  | .lin s => matvec s.W s.inF x
  | .convS s => matvec s.W s.inF x
  | .seqS => x

/-- Adjoint map of an inner dense dual. -/
def simpleAffineT (w : SimpleDual) (x : V) : V :=
  match w with
  | .lin s => matvecT s.W s.outF x
  | .convS s => matvecT s.W s.outF x
  | .seqS => x

/-- DualDense.affine (dual.py lines 366-377): take the trailing window of
duals that fits the history, align dual j with history prefix xs[:i+1]
(of which only xs[i] is read by the inner duals), and sum the non-None
contributions. -/
def denseAffineV (duals : List (Option SimpleDual)) (xs : List V) : V :=
  (List.range (min xs.length duals.length)).foldl
    (fun acc t =>
      match (duals.drop (duals.length - min xs.length duals.length)).getD t none with
      | none => acc
      | some w => addV acc (simpleAffineV w
          (xs.getD (xs.length - min xs.length duals.length + t) zeroV)))
    zeroV

/-- DualDense.affine_transpose (dual.py lines 379-396), same windowing over
dual_ts with the adjoint inner maps. -/
def denseAffineT (dual_ts : List (Option SimpleDual)) (xs : List V) : V :=
  (List.range (min xs.length dual_ts.length)).foldl
    (fun acc t =>
      match (dual_ts.drop (dual_ts.length - min xs.length dual_ts.length)).getD t none with
      | none => acc
      | some w => addV acc (simpleAffineT w
          (xs.getD (xs.length - min xs.length dual_ts.length + t) zeroV)))
    zeroV

/-- The forward affine map each dual operator applies to the last entry of a
history of vectors (InfBall and InfBallProj define no affine in the source
and are never pushed through another operator; for totality they act as the
identity on the last entry). -/
def DualOp.affineV (op : DualOp) (xs : List V) : V :=
  match op with
  | .ball _ => lastV xs
  | .ballProj _ => lastV xs
  | .linear s => matvec s.W s.inF (lastV xs)
  | .convOp s => matvec s.W s.inF (lastV xs)
  | .reluOp s => fun j => s.d j * lastV xs j
  | .reluProj s => fun j => s.d j * lastV xs j
  | .reshapeOp => lastV xs
  | .seqOp => lastV xs
  | .bnOp s => fun j => s.D j * lastV xs j
  | .denseOp s => denseAffineV s.duals xs

/-- The same map acting row-wise on a history of direction-indexed
certificates (the source broadcasts over the direction dimension; for
DualReLU.affine with I_ind, indexing d by the batch of each row coincides
with broadcasting at batch size one). -/
def DualOp.affineM (op : DualOp) (xs : List Mx) : Mx :=
  fun r => op.affineV (xs.map (fun A => A r))

/-- The adjoint map applied to a growing adjoint-certificate history (the
.affine_transpose methods; only the last entry is read except by DualDense). -/
def DualOp.affineT (op : DualOp) (xs : List V) : V :=
  match op with
  | .ball _ => lastV xs
  | .ballProj _ => lastV xs
  | .linear s => matvecT s.W s.outF (lastV xs)
  | .convOp s => matvecT s.W s.outF (lastV xs)
  | .reluOp s => fun j => s.d j * lastV xs j
  | .reluProj s => fun j => s.d j * lastV xs j
  | .reshapeOp => lastV xs
  | .seqOp => lastV xs
  | .bnOp s => fun j => s.D j * lastV xs j
  | .denseOp s => denseAffineT s.dual_ts xs

/- ------------------------------------------------------------------
apply: pushing a newly constructed dual layer through an operator's
history lists (each class's .apply method).
------------------------------------------------------------------ -/

/-- Inner dense dual apply (DualLinear.apply line 111-113 /
DualSequential.apply): append the applied layer's affine of the bias
history. -/
def SimpleDual.applyS (w : SimpleDual) (applied : DualOp) : SimpleDual :=
  match w with
  | .lin s => .lin { s with bias := s.bias.map (fun bl => bl ++ [applied.affineV bl]) }
  | .convS s => .convS { s with bias := s.bias.map (fun bl => bl ++ [applied.affineV bl]) }
  | .seqS => .seqS

/-- target.apply(applied): each operator appends the applied layer's affine
of its history lists (InfBall lines 64-66, InfBallProj lines 88-90,
DualLinear lines 111-113, DualReLU lines 234-240, DualReLUProj lines
311-315, DualBatchNorm2d lines 445-446, DualDense lines 398-401; reshape and
sequential are no-ops). -/
def DualOp.apply (target applied : DualOp) : DualOp :=
  match target with
  | .ball s => .ball { s with
      nu_x := s.nu_x ++ [applied.affineV s.nu_x],
      nu_1 := s.nu_1 ++ [applied.affineM s.nu_1] }
  | .ballProj s => .ballProj { s with
      nu_x := s.nu_x ++ [applied.affineV s.nu_x],
      nu := s.nu ++ [applied.affineM s.nu] }
  | .linear s => .linear { s with
      bias := s.bias.map (fun bl => bl ++ [applied.affineV bl]) }
  | .convOp s => .convOp { s with
      bias := s.bias.map (fun bl => bl ++ [applied.affineV bl]) }
  | .reluOp s =>
      if s.Iempty then .reluOp s
      else .reluOp { s with nus := s.nus ++ [applied.affineM s.nus] }
  | .reluProj s =>
      if s.Iempty then .reluProj s
      else .reluProj { s with
        nus := s.nus ++ [applied.affineM s.nus],
        nu_ones := s.nu_ones ++ [applied.affineV s.nu_ones] }
  | .reshapeOp => .reshapeOp
  | .seqOp => .seqOp
  | .bnOp s => .bnOp { s with ds := s.ds ++ [applied.affineV s.ds] }
  | .denseOp s => .denseOp { s with
      duals := s.duals.map (fun ow => ow.map (fun w => w.applyS applied)) }

/- ------------------------------------------------------------------
fval: bound contributions.  fval() with no direction returns elementwise
(lower, upper) vectors; Python returns scalar 0 where an operator has no
contribution, which broadcasts in the chain sum, so the embedding returns
zeroV there.  fval(nu, nu_prev) returns the scalar dual-objective term.
------------------------------------------------------------------ -/

/-- torch.median along the direction dimension: the (len-1)/2-th smallest
element (for even lengths torch returns the lower of the two middles). -/
def medianList (l : List ℚ) : ℚ :=
  (l.insertionSort (fun a b => a ≤ b)).getD ((l.length - 1) / 2) 0

/-- Median of absolute values over k certificate rows, per feature. -/
def medAbsRow (k : ℕ) (A : Mx) : V :=
  fun j => medianList ((List.range k).map (fun r => |A r j|))

/-- Inner dense dual fval with no direction. -/
def simpleFval0 (w : SimpleDual) : V × V :=
  match w with
  | .lin s | .convS s =>
    match s.bias with
    | none => (zeroV, zeroV)
    | some bl => (lastV bl, lastV bl)
  | .seqS => (zeroV, zeroV)

/-- Inner dense dual fval with a direction. -/
def simpleFvalDir (w : SimpleDual) (nu : V) : ℚ :=
  match w with
  | .lin s | .convS s =>
    match s.bias with
    | none => 0
    | some bl => -(dot s.outF nu (headV bl))
  | .seqS => 0

/-- op.fval() with no direction: elementwise (lower, upper) contribution
(InfBall lines 68-72, InfBallProj lines 93-97, DualLinear lines 115-120,
DualReLU lines 242-254, DualReLUProj lines 317-336, DualBatchNorm2d lines
448-452, DualDense lines 403-408). -/
def DualOp.fval0 (op : DualOp) : V × V :=
  match op with
  | .ball s =>
    (fun j => lastV s.nu_x j -
        s.epsilon * (Finset.range s.n).sum (fun i => |lastM s.nu_1 i j|),
     fun j => lastV s.nu_x j +
        s.epsilon * (Finset.range s.n).sum (fun i => |lastM s.nu_1 i j|))
  | .ballProj s =>
    (fun j => lastV s.nu_x j - s.epsilon * medAbsRow s.k (lastM s.nu) j,
     fun j => lastV s.nu_x j + s.epsilon * medAbsRow s.k (lastM s.nu) j)
  | .linear s | .convOp s =>
    match s.bias with
    | none => (zeroV, zeroV)
    | some bl => (lastV bl, lastV bl)
  | .reluOp s =>
    if s.Iempty then (zeroV, zeroV)
    else
      (fun j => (Finset.range s.inds.length).sum
          (fun r => s.zl (s.inds.getD r 0) * max 0 (-(lastM s.nus r j))),
       fun j => -((Finset.range s.inds.length).sum
          (fun r => s.zl (s.inds.getD r 0) * max 0 (lastM s.nus r j))))
  | .reluProj s =>
    if s.Iempty then (zeroV, zeroV)
    else
      (fun j => (-(medAbsRow s.k (lastM s.nus) j) - lastV s.nu_ones j) / 2,
       fun j => (medAbsRow s.k (lastM s.nus) j - lastV s.nu_ones j) / 2)
  | .reshapeOp => (zeroV, zeroV)
  | .seqOp => (zeroV, zeroV)
  | .bnOp s => (lastV s.ds, lastV s.ds)
  | .denseOp s =>
    s.duals.foldl
      (fun acc ow =>
        match ow with
        | none => acc
        | some w => (addV acc.1 (simpleFval0 w).1, addV acc.2 (simpleFval0 w).2))
      (zeroV, zeroV)

/-- op.fval(nu, nu_prev): scalar contribution to the adjoint-sweep dual
objective (same source lines as fval0; DualReLU reads nu_prev, the others
read nu). -/
def DualOp.fvalDir (op : DualOp) (nu nu_prev : V) : ℚ :=
  match op with
  | .ball s => -(dot s.n nu (headV s.nu_x)) - s.epsilon * l1norm s.n nu
  | .ballProj s => -(dot s.n nu (headV s.nu_x)) - s.epsilon * l1norm s.n nu
  | .linear s | .convOp s =>
    match s.bias with
    | none => 0
    | some bl => -(dot s.outF nu (headV bl))
  | .reluOp s =>
    if s.Iempty then 0
    else (Finset.range s.n).sum
      (fun j => max 0 (nu_prev j) * s.zl j * (if s.uI j then 1 else 0))
  | .reluProj s =>
    if s.Iempty then 0
    else (Finset.range s.n).sum
      (fun j => max 0 (nu_prev j) * s.zl j * (if s.uI j then 1 else 0))
  | .reshapeOp => 0
  | .seqOp => 0
  | .bnOp s => -(dot s.n nu (headV s.ds))
  | .denseOp s =>
    s.duals.foldl
      (fun acc ow =>
        match ow with
        | none => acc
        | some w => acc + simpleFvalDir w nu)
      0

/- ------------------------------------------------------------------
Constructors.
------------------------------------------------------------------ -/

/-- The ordered list of coordinates below n where the mask holds
(I.view(-1, n).nonzero() at batch size one). -/
def indsOf (n : ℕ) (uI : ℕ → Bool) : List ℕ :=
  (List.range n).filter (fun j => uI j)

/-- One in-place scatter step: set entry (r, c) of the matrix. -/
def updateM (A : Mx) (r c : ℕ) (q : ℚ) : Mx :=
  fun r2 c2 => if r2 = r ∧ c2 = c then q else A r2 c2

/-- The initial DualReLU certificate (dual.py lines 222-224): a zero matrix
with one row per unstable activation, row r receiving value d at column
inds[r] via scatter_(1, I_ind[:,1,None], d[I][:,None]). -/
def scatterDiag (inds : List ℕ) (d : V) : Mx :=
  (List.range inds.length).foldl
    (fun A r => updateM A r (inds.getD r 0) (d (inds.getD r 0))) zeroM

/-- DualReLU.__init__ (dual.py lines 214-232). -/
def mkDualReLU (n : ℕ) (uI : ℕ → Bool) (d zl : V) : DualReLU :=
  if (indsOf n uI).isEmpty then
    { n := n, uI := uI, d := d, zl := zl, Iempty := true, inds := [], nus := [] }
  else
    { n := n, uI := uI, d := d, zl := zl, Iempty := false,
      inds := indsOf n uI, nus := [scatterDiag (indsOf n uI) d] }

/-- DualReLUProj.__init__ (dual.py lines 281-309).  sample is the Cauchy
draw (randomness is an explicit argument).  The Boolean result records
whether the warning about an empty unstable set was emitted.  The inner
redundant guard on I.sum() at line 299 is always true on the non-empty
branch and is dropped. -/
def mkDualReLUProj (n k : ℕ) (uI : ℕ → Bool) (d zl : V) (sample : Mx) :
    DualReLUProj × Bool :=
  if (indsOf n uI).isEmpty then
    ({ n := n, k := k, uI := uI, d := d, zl := zl, Iempty := true,
       nus := [], nu_ones := [] }, true)
  else
    ({ n := n, k := k, uI := uI, d := d, zl := zl, Iempty := false,
       nus := [fun r c => d c * (zl c * (if uI c then sample r c else 0))],
       nu_ones := [fun c => d c * (zl c * (if uI c then 1 else 0))] }, false)

/- ------------------------------------------------------------------
History-length bookkeeping for the invariant of claim C7.
------------------------------------------------------------------ -/

/-- Lengths of the history lists an inner dense dual owns. -/
def SimpleDual.histLens (w : SimpleDual) : List ℕ :=
  match w with
  | .lin s | .convS s =>
    match s.bias with
    | none => []
    | some bl => [bl.length]
  | .seqS => []

/-- Lengths of the history lists owned by the inner duals of a dense block. -/
def denseHistLens (l : List (Option SimpleDual)) : List ℕ :=
  l.foldr
    (fun ow acc =>
      (match ow with
       | none => []
       | some w => w.histLens) ++ acc) []

/-- Lengths of every certificate history list a dual operator owns: the
nu_x/nu_1 (resp. nu) lists of the uncertainty-set representatives, an affine
or convolution operator's bias list (if the layer has a bias), a ReLU
operator's nus list (and the randomized variant's nu_ones), a normalization
operator's ds list, and the bias lists of a dense block's inner duals.  An
operator in the empty-relaxation state, or an affine operator without bias,
owns no list. -/
def DualOp.histLens (op : DualOp) : List ℕ :=
  match op with
  | .ball s => [s.nu_x.length, s.nu_1.length]
  | .ballProj s => [s.nu_x.length, s.nu.length]
  | .linear s | .convOp s =>
    match s.bias with
    | none => []
    | some bl => [bl.length]
  | .reluOp s => if s.Iempty then [] else [s.nus.length]
  | .reluProj s => if s.Iempty then [] else [s.nus.length, s.nu_ones.length]
  | .reshapeOp => []
  | .seqOp => []
  | .bnOp s => [s.ds.length]
  | .denseOp s => denseHistLens s.duals

/-- Iterated apply: push a sequence of later dual layers through an
operator, in order. -/
def applyMany (target : DualOp) (ls : List DualOp) : DualOp :=
  ls.foldl (fun t a => t.apply a) target

/-- The initial states produced by the constructors of dual.py: InfBall and
InfBallProj (lines 54-62, 79-86), DualLinear and DualConv2d (lines 101-109,
156-164, the bias history seeded with the single full bias), DualReLU and
DualReLUProj, DualReshape, DualSequential, DualBatchNorm2d (lines 413-435,
ds seeded with the single shift tensor), and DualDense (whose inner duals
are freshly constructed, so own singleton histories). -/
inductive Constructed : DualOp → Prop where
  | ball (n : ℕ) (eps : ℚ) (X : V) :
      Constructed (.ball ⟨n, eps, [X], [eyeM n]⟩)
  | ballProj (n k : ℕ) (eps : ℚ) (X : V) (sample : Mx) :
      Constructed (.ballProj ⟨n, k, eps, [X], [sample]⟩)
  | linear (inF outF : ℕ) (W : Mx) (b : Option V) :
      Constructed (.linear ⟨inF, outF, W, b.map (fun v => [v])⟩)
  | convOp (inF outF : ℕ) (W : Mx) (b : Option V) :
      Constructed (.convOp ⟨inF, outF, W, b.map (fun v => [v])⟩)
  | reluOp (n : ℕ) (uI : ℕ → Bool) (d zl : V) :
      Constructed (.reluOp (mkDualReLU n uI d zl))
  | reluProj (n k : ℕ) (uI : ℕ → Bool) (d zl : V) (sample : Mx) :
      Constructed (.reluProj (mkDualReLUProj n k uI d zl sample).1)
  | reshapeOp : Constructed .reshapeOp
  | seqOp : Constructed .seqOp
  | bnOp (n : ℕ) (D ds0 : V) : Constructed (.bnOp ⟨n, D, [ds0]⟩)
  | denseOp (s : DualDense) (h : ∀ L ∈ denseHistLens s.duals, L = 1) :
      Constructed (.denseOp s)

/- ------------------------------------------------------------------
Network description and the bound orchestrator DualNetBounds
(dual.py lines 474-608).
------------------------------------------------------------------ -/

/-- The modules a Dense block may hold in its Ws list.  DualDense
(lines 343-354) distinguishes nn.Conv2d, nn.Linear, empty nn.Sequential and
None; any other module (a ReLU, or anything else) hits the parse error.
Weights carry their flattened linear maps as in DualLinear. -/
inductive DenseW where
  | linW (inF outF : ℕ) (W : Mx) (bias : Option V)
  | convW (inF outF : ℕ) (W : Mx) (bias : Option V)
  | seqEmptyW
  | reluW (n : ℕ)
  | otherW (name : String)

/-- Layer descriptors of the input network, one constructor per kind the
dispatch of DualNetBounds.__init__ (lines 512-550) distinguishes.
Convolutions carry the linear map they denote on flattened features; batch
normalization carries its per-feature weight, bias, statistics mean and
sqrt(var + eps) denominator, already resolved between training and running
statistics (the rationals have no square root; the claims under study do not
touch the statistics computation).  unknownL covers every other module,
including non-empty or empty Sequential containers at the top level. -/
inductive Layer where
  | linearL (inF outF : ℕ) (W : Mx) (bias : Option V)
  | conv2dL (inF outF : ℕ) (W : Mx) (bias : Option V)
  | reluL (n : ℕ)
  | flattenL (inF outF : ℕ)
  | denseL (ws : List (Option DenseW))
  | batchNormL (n : ℕ) (weight bias mu denom : V)
  | unknownL (name : String)

def Layer.isLinearL : Layer → Bool
  | .linearL _ _ _ _ => true
  | _ => false

def Layer.isConv2dL : Layer → Bool
  | .conv2dL _ _ _ _ => true
  | _ => false

def Layer.isDenseL : Layer → Bool
  | .denseL _ => true
  | _ => false

def DualOp.isBallProj : DualOp → Bool
  | .ballProj _ => true
  | _ => false

/-- Constructor kinds, used to track the correspondence between chain
entries and the processed network prefix. -/
inductive LKind where
  | ballK
  | ballProjK
  | linK
  | convK
  | reluK
  | reshapeK
  | seqK
  | bnK
  | denseK
deriving DecidableEq

def kindOf : DualOp → LKind
  | .ball _ => .ballK
  | .ballProj _ => .ballProjK
  | .linear _ => .linK
  | .convOp _ => .convK
  | .reluOp _ => .reluK
  | .reluProj _ => .reluK
  | .reshapeOp => .reshapeK
  | .seqOp => .seqK
  | .bnOp _ => .bnK
  | .denseOp _ => .denseK

def layerKind : Layer → LKind
  | .linearL _ _ _ _ => .linK
  | .conv2dL _ _ _ _ => .convK
  | .reluL _ => .reluK
  | .flattenL _ _ => .reshapeK
  | .denseL _ => .denseK
  | .batchNormL _ _ _ _ _ => .bnK
  | .unknownL _ => .seqK

/-- DualLinear.__init__ (lines 101-109): rejects non-linear layers, seeds
the bias history with the single expanded bias. -/
def mkDualLinear (l : Layer) : Except String DualLinear :=
  match l with
  | .linearL inF outF W b => .ok ⟨inF, outF, W, b.map (fun v => [v])⟩
  | _ => .error ("Expected nn.Linear input.")

/-- DualConv2d.__init__ (lines 156-164): rejects non-convolutional layers. -/
def mkDualConv2d (l : Layer) : Except String DualLinear :=
  match l with
  | .conv2dL inF outF W b => .ok ⟨inF, outF, W, b.map (fun v => [v])⟩
  | _ => .error ("Expected nn.Conv2d input.")

/-- The dual for one Dense sub-module (lines 343-355). -/
def mkSimpleDual (w : Option DenseW) : Except String (Option SimpleDual) :=
  match w with
  | none => .ok none
  | some (.linW inF outF W b) =>
    .ok (some (.lin ⟨inF, outF, W, b.map (fun v => [v])⟩))
  | some (.convW inF outF W b) =>
    .ok (some (.convS ⟨inF, outF, W, b.map (fun v => [v])⟩))
  | some .seqEmptyW => .ok (some .seqS)
  | some _ => .error ("do not know how to parse dense structure")

/-- Back-reference rewiring of an earlier chain entry (lines 357-361): for
sub-module i of a Dense block being built while the chain has length
len(chain), the new sub-dual is prepended (with None padding) to the
dual_ts list of chain entry len(chain) + i + 1 - len(Ws).  Reading dual_ts
of a non-Dense entry is an attribute error; a negative Python index reaching
past the front of the chain is an index error. -/
def denseRewire (chain : List DualOp) (wlen i : ℕ) (dl : Option SimpleDual) :
    Except String (List DualOp) :=
  if i + 1 < wlen then
    match dl with
    | none => .ok chain
    | some w =>
      if chain.length + i + 1 < wlen then .error ("list index out of range")
      else
        match chain.getD (chain.length + i + 1 - wlen) .seqOp with
        | .denseOp s =>
          .ok (chain.set (chain.length + i + 1 - wlen)
            (.denseOp ⟨s.duals,
              some w :: (List.replicate (wlen - i - s.dual_ts.length - 1) none
                ++ s.dual_ts)⟩))
        | _ => .error ("object has no attribute dual_ts")
  else .ok chain

/-- The construction loop of DualDense.__init__ over Ws, with rewiring. -/
def mkDualDenseGo (wlen : ℕ) (chain : List DualOp)
    (duals : List (Option SimpleDual)) (i : ℕ) :
    List (Option DenseW) →
      Except String (List (Option SimpleDual) × List DualOp)
  | [] => .ok (duals, chain)
  | w :: rest =>
    match mkSimpleDual w with
    | .error e => .error e
    | .ok dl =>
      match denseRewire chain wlen i dl with
      | .error e => .error e
      | .ok chain2 => mkDualDenseGo wlen chain2 (duals ++ [dl]) (i + 1) rest

/-- DualDense.__init__ (lines 340-363): build the per-sub-module duals,
rewire earlier dense chain entries' dual_ts, and seed this block's dual_ts
with the last sub-dual (an index error when Ws is empty).  The dense_t
argument of the source constructor is unused by its body and omitted. -/
def mkDualDense (ws : List (Option DenseW)) (chain : List DualOp) :
    Except String (DualDense × List DualOp) :=
  match mkDualDenseGo ws.length chain [] 0 ws with
  | .error e => .error e
  | .ok (duals, chain2) =>
    match duals.getLast? with
    | none => .error ("list index out of range")
    | some dlast => .ok (⟨duals, [dlast]⟩, chain2)

/-- Pre-activation interval bounds: the summed fval() of every chain entry
(lines 518-519). -/
def chainBounds (chain : List DualOp) : V × V :=
  chain.foldl
    (fun acc op => (addV acc.1 op.fval0.1, addV acc.2 op.fval0.2))
    (zeroV, zeroV)

/-- Keyword arguments of DualNetBounds.__init__ that reach the construction
logic, plus an explicit source of Cauchy randomness for the projected ReLU
(one sample matrix per layer index).  l1_eps and m are accepted and unused
on this path, as in the source; alpha_grad, scatter_grad and batchnorm only
affect gradient bookkeeping and are dropped. -/
structure BuildParams where
  l1_proj : Option ℕ
  l1_type : String
  l1_eps : Option ℚ
  m : Option ℕ
  sampler : ℕ → Mx

/-- Dispatch on the layer kind (lines 512-550), producing this layer's dual
operator and the possibly rewired chain. -/
def mkDualLayer (p : BuildParams) (i : ℕ) (chain : List DualOp) :
    Layer → Except String (DualOp × List DualOp)
  | .linearL inF outF W b =>
    match mkDualLinear (.linearL inF outF W b) with
    | .error e => .error e
    | .ok s => .ok (.linear s, chain)
  | .conv2dL inF outF W b =>
    match mkDualConv2d (.conv2dL inF outF W b) with
    | .error e => .error e
    | .ok s => .ok (.convOp s, chain)
  | .reluL n =>
    match p.l1_proj with
    | some kk =>
      if p.l1_type = "median" ∧
          kk < (indsOf n (reluI (chainBounds chain).1 (chainBounds chain).2)).length then
        .ok (.reluProj (mkDualReLUProj n kk
          (reluI (chainBounds chain).1 (chainBounds chain).2)
          (reluD (chainBounds chain).1 (chainBounds chain).2)
          (chainBounds chain).1 (p.sampler i)).1, chain)
      else
        .ok (.reluOp (mkDualReLU n
          (reluI (chainBounds chain).1 (chainBounds chain).2)
          (reluD (chainBounds chain).1 (chainBounds chain).2)
          (chainBounds chain).1), chain)
    | none =>
      .ok (.reluOp (mkDualReLU n
        (reluI (chainBounds chain).1 (chainBounds chain).2)
        (reluD (chainBounds chain).1 (chainBounds chain).2)
        (chainBounds chain).1), chain)
  | .flattenL _ _ => .ok (.reshapeOp, chain)
  | .denseL ws =>
    match mkDualDense ws chain with
    | .error e => .error e
    | .ok (s, chain2) => .ok (.denseOp s, chain2)
  | .batchNormL n w b mu denom =>
    .ok (.bnOp ⟨n, fun j => w j / denom j,
      [fun j => b j - w j * (mu j / denom j)]⟩, chain)
  | .unknownL name => .error ("No module for layer " ++ name)

/-- The main construction loop (lines 512-601): build a dual layer per
network layer; for all but the last, push it through every chain entry via
apply and append it to the chain; the final layer's operator is kept
separate. -/
def buildGo (p : BuildParams) : ℕ → List Layer → List DualOp →
    Except String (List DualOp × Option DualOp)
  | _, [], chain => .ok (chain, none)
  | i, [l], chain =>
    match mkDualLayer p i chain l with
    | .error e => .error e
    | .ok (d, chain2) => .ok (chain2, some d)
  | i, l :: rest, chain =>
    match mkDualLayer p i chain l with
    | .error e => .error e
    | .ok (d, chain2) =>
      buildGo p (i + 1) rest (chain2.map (fun t => t.apply d) ++ [d])

/-- DualNetBounds.__init__ (lines 474-608): the full chain construction,
starting from the exact InfBall representative of the input set.  The
forward pass of lines 492-499 only records per-layer shapes and batch
statistics, which the flattened layer descriptors already carry, so it
needs no separate representation.  n0 is numel(X[0]).  For a non-empty
net the result pairs the chain dual_net with last_layer; the empty net
leaves last_layer unset. -/
def DualNetBounds (net : List Layer) (n0 : ℕ) (X : V) (epsilon : ℚ)
    (p : BuildParams) : Except String (List DualOp × Option DualOp) :=
  buildGo p 0 net [.ball ⟨n0, epsilon, [X], [eyeM n0]⟩]

/- ------------------------------------------------------------------
Syntactic characterisation of construction failure, for claim C9.
------------------------------------------------------------------ -/

/-- Whether DualDense cannot parse this Dense sub-module. -/
def denseWBad (w : Option DenseW) : Bool :=
  match w with
  | none => false
  | some (.linW _ _ _ _) => false
  | some (.convW _ _ _ _) => false
  | some .seqEmptyW => false
  | some _ => true

/-- Whether the back-reference of sub-module i of a Dense block at network
position pPos is ill-placed: it must land on a chain entry at or after
position 1 whose layer is itself a Dense block. -/
def rewireBad (net : List Layer) (pPos : ℕ) (ws : List (Option DenseW))
    (i : ℕ) : Bool :=
  if i + 1 < ws.length ∧ (ws.getD i none).isSome then
    ! (decide (ws.length ≤ pPos + 1 + i) &&
       (net.getD (pPos + 1 + i - ws.length) (.unknownL "")).isDenseL)
  else false

/-- Whether building the dual of the layer at network position pPos fails. -/
def layerBad (net : List Layer) (pPos : ℕ) : Layer → Bool
  | .unknownL _ => true
  | .denseL ws =>
    ws.isEmpty ||
      (List.range ws.length).any
        (fun i => denseWBad (ws.getD i none) || rewireBad net pPos ws i)
  | _ => false

/-- Whether DualNetBounds construction fails on this network. -/
def buildFails (net : List Layer) : Bool :=
  (List.range net.length).any
    (fun pPos => layerBad net pPos (net.getD pPos (.unknownL "")))

/- ------------------------------------------------------------------
The bound evaluation g and its state-threaded version.
------------------------------------------------------------------ -/

/-- The adjoint certificate list built by DualNetBounds.g (lines 610-618):
nu starts as [-c, last_layer.affine_transpose(-c)] and is grown through the
reversed chain (entry 0, the uncertainty set, excluded), each operator
receiving the whole list built so far. -/
def gNus (chain : List DualOp) (last : DualOp) (c : V) : List V :=
  ((chain.drop 1).reverse).foldl
    (fun acc op => acc ++ [op.affineT acc])
    [negV c, last.affineT [negV c]]

/-- DualNetBounds.g (lines 610-626): sum each operator's fval at its own
adjoint certificate and its predecessor's.  The leading None the source
pairs with the uncertainty-set entry (whose fval ignores nu_prev) is zeroV
here. -/
def g (chain : List DualOp) (last : DualOp) (c : V) : ℚ :=
  (((chain ++ [last]).zip
      ((zeroV :: (gNus chain last c).reverse).zip ((gNus chain last c).reverse))).map
    (fun t => t.1.fvalDir t.2.2 t.2.1)).sum

/-- fval with a direction as a state transformer: the translated method
returns its value together with its receiver rebuilt field by field (the
source method body only reads the receiver and assigns nothing). -/
def DualOp.fvalDirS (op : DualOp) (nu nu_prev : V) : ℚ × DualOp :=
  (op.fvalDir nu nu_prev,
   match op with
   | .ball s => .ball ⟨s.n, s.epsilon, s.nu_x, s.nu_1⟩
   | .ballProj s => .ballProj ⟨s.n, s.k, s.epsilon, s.nu_x, s.nu⟩
   | .linear s => .linear ⟨s.inF, s.outF, s.W, s.bias⟩
   | .convOp s => .convOp ⟨s.inF, s.outF, s.W, s.bias⟩
   | .reluOp s => .reluOp ⟨s.n, s.uI, s.d, s.zl, s.Iempty, s.inds, s.nus⟩
   | .reluProj s => .reluProj ⟨s.n, s.k, s.uI, s.d, s.zl, s.Iempty, s.nus, s.nu_ones⟩
   | .reshapeOp => .reshapeOp
   | .seqOp => .seqOp
   | .bnOp s => .bnOp ⟨s.n, s.D, s.ds⟩
   | .denseOp s => .denseOp ⟨s.duals, s.dual_ts⟩)

/-- DualNetBounds.g as a state transformer over the whole chain: the bound
and the list of receivers handed back by the fval sweep. -/
def gS (chain : List DualOp) (last : DualOp) (c : V) : ℚ × List DualOp :=
  (((chain ++ [last]).zip
      ((zeroV :: (gNus chain last c).reverse).zip ((gNus chain last c).reverse))).map
    (fun t => t.1.fvalDirS t.2.2 t.2.1)).foldr
    (fun r acc => (r.1 + acc.1, r.2 :: acc.2)) (0, [])

/-- One state-threaded evaluation: the bound plus the chain and last layer
handed back by the sweep. -/
def evalStep (st : List DualOp × DualOp) (c : V) : ℚ × (List DualOp × DualOp) :=
  ((gS st.1 st.2 c).1,
   ((gS st.1 st.2 c).2.dropLast, (gS st.1 st.2 c).2.getLastD st.2))

/-- Evaluating a sequence of objectives on one chain, threading the state
handed back by each sweep into the next. -/
def evalMany (st : List DualOp × DualOp) :
    List V → List ℚ × (List DualOp × DualOp)
  | [] => ([], st)
  | c :: cs =>
    ((evalStep st c).1 :: (evalMany (evalStep st c).2 cs).1,
     (evalMany (evalStep st c).2 cs).2)

/- ------------------------------------------------------------------
The closed-form adjoint sweep of claim C1 (spec side), and devices for
relating it to g.
------------------------------------------------------------------ -/

/-- The closed form of claim C1, written independently of the dual chain:
peel the layers from the output end, accumulating each layer's bias
contribution -direction . bias while propagating the (negated) objective
through the transposed affine map, and finish with the uncertainty-set term
exactly as computed by InfBall.fval. -/
def sweepSpec (n0 : ℕ) (X : V) (eps : ℚ) : List Layer → V → ℚ
  | [], nu => -(dot n0 nu X) - eps * l1norm n0 nu
  | l :: rest, nu =>
    (match l with
     | .linearL _ outF _ (some b) => -(dot outF nu b)
     | .conv2dL _ outF _ (some b) => -(dot outF nu b)
     | _ => 0) +
    sweepSpec n0 X eps rest
      (match l with
       | .linearL _ outF W _ => matvecT W outF nu
       | .conv2dL _ outF W _ => matvecT W outF nu
       | _ => nu)

/-- Claim C1's closed-form value: propagate the objective through the
transposed affine maps of every layer starting from the output, summing the
bias contributions, plus the uncertainty-set term. -/
def closedForm (n0 : ℕ) (X : V) (eps : ℚ) (net : List Layer) (c : V) : ℚ :=
  sweepSpec n0 X eps net.reverse (negV c)

/-- One-step adjoint propagation from a single certificate. -/
def stepT (op : DualOp) (nu : V) : V := op.affineT [nu]

/-- Top-down adjoint certificates: the successive outputs of affineT. -/
def nuChain : List DualOp → V → List V
  | [], _ => []
  | op :: rest, nu => stepT op nu :: nuChain rest (stepT op nu)

/-- Top-down restatement of g for chains whose operators read only the most
recent adjoint certificate. -/
def gLinForm (ballOp : DualOp) : List DualOp → V → ℚ
  | [], nu => ballOp.fvalDir nu zeroV
  | op :: rest, nu => op.fvalDir nu zeroV + gLinForm ballOp rest (stepT op nu)

/-- Invariant of the chain under construction: the first element is the
exact InfBall representative with its core fields intact, and no element is
the randomized InfBallProj representative. -/
def ChainInv (n0 : ℕ) (eps : ℚ) (X : V) (chain : List DualOp) : Prop :=
  (∃ s : InfBall, chain.head? = some (.ball s) ∧ s.n = n0 ∧ s.epsilon = eps ∧
    headV s.nu_x = X ∧ s.nu_x ≠ [] ∧ headM s.nu_1 = eyeM n0 ∧ s.nu_1 ≠ []) ∧
  ∀ op ∈ chain, op.isBallProj = false


/-- The chain-level form of the back-reference check: while building the
Dense block, sub-module i (if present) must route into a chain entry at
position at least 1 holding a dense dual. -/
def rewireBadChainW (chain : List DualOp) (wlen i : ℕ) (w : Option DenseW) : Bool :=
  if i + 1 < wlen ∧ w.isSome then
    ! (decide (wlen ≤ chain.length + i + 1) &&
       decide (kindOf (chain.getD (chain.length + i + 1 - wlen) .seqOp) = LKind.denseK))
  else false

/-- The layer kinds the dispatch of DualNetBounds.__init__ recognizes
(linear, convolutional, ReLU, flatten, dense, batch-norm). -/
def recognizedKind : Layer → Bool
  | .unknownL _ => false
  | _ => true

/-- The module kinds of the claimed recognized list, for Dense sub-modules
(a ReLU sub-module is of a recognized kind even though DualDense rejects
it). -/
def recognizedKindW : DenseW → Bool
  | .otherW _ => false
  | _ => true

/-- The plain affine layer kinds of claim C1: fully-connected, convolutional
(carried as its flattened linear map) and reshape layers. -/
def Layer.isAffineL : Layer → Bool
  | .linearL _ _ _ _ => true
  | .conv2dL _ _ _ _ => true
  | .flattenL _ _ => true
  | _ => false

/-- The head of the chain is the exact InfBall representative with its core
fields (dimension, radius, nominal input at the head of the history) intact. -/
def BallMatch (n0 : ℕ) (X : V) (eps : ℚ) (op : DualOp) : Prop :=
  ∃ s : InfBall, op = .ball s ∧ s.n = n0 ∧ s.epsilon = eps ∧
    headV s.nu_x = X ∧ s.nu_x ≠ []

/-- A chain entry is the dual of the given affine layer with the layer
parameters intact and the head of the bias history equal to the layer bias. -/
def LinMatch (l : Layer) (op : DualOp) : Prop :=
  (∃ a b2, l = .flattenL a b2 ∧ op = .reshapeOp) ∨
  (∃ (inF outF : ℕ) (W : Mx) (bo : Option V) (bb : Option (List V)),
    ((l = .linearL inF outF W bo ∧ op = .linear ⟨inF, outF, W, bb⟩) ∨
     (l = .conv2dL inF outF W bo ∧ op = .convOp ⟨inF, outF, W, bb⟩)) ∧
    ((bo = none ∧ bb = none) ∨
     (∃ v bl, bo = some v ∧ bb = some bl ∧ bl ≠ [] ∧ headV bl = v)))

/-- Pointwise correspondence between a list of affine layers and a list of
chain entries. -/
def LinChainRel : List Layer → List DualOp → Prop
  | [], [] => True
  | l :: ls, op :: ops => LinMatch l op ∧ LinChainRel ls ops
  | _, _ => False

/-- An operator whose adjoint map reads only the most recent certificate and
whose fval ignores the predecessor certificate. -/
def ReadsLast (op : DualOp) : Prop :=
  (∀ xs : List V, op.affineT xs = stepT op (lastV xs)) ∧
  (∀ nu a b2 : V, op.fvalDir nu a = op.fvalDir nu b2)


end ConvexAdv

namespace ConvexAdv

/-- A primitive that acts per batch element maps empty batches to empty. -/
lemma prim_nil {α : Type} (prim : List α → List α)
    (hb : ∀ a b : List α, prim (a ++ b) = prim a ++ prim b) : prim [] = [] := by
  have h := hb [] []
  simp only [List.append_nil] at h
  have hlen := congrArg List.length h
  simp only [List.length_append] at hlen
  have : (prim []).length = 0 := by omega
  exact List.length_eq_zero.mp this

lemma conv2d_chunk_eq {α : Type} (prim : List α → List α)
    (hb : ∀ a b : List α, prim (a ++ b) = prim a ++ prim b) :
    ∀ (n : ℕ) (x : List α), x.length ≤ n → conv2d prim x = prim x := by
  intro n
  induction n with
  | zero =>
    intro x hx
    have hnil : x = [] := List.length_eq_zero.mp (Nat.le_zero.mp hx)
    subst hnil
    rw [conv2d, prim_nil prim hb]
  | succ n ih =>
    intro x hx
    match x with
    | [] => rw [conv2d, prim_nil prim hb]
    | a :: xs =>
      rw [conv2d]
      have hdrop : ((a :: xs).drop 10000).length ≤ n := by
        simp only [List.length_drop, List.length_cons]
        simp only [List.length_cons] at hx
        omega
      rw [ih ((a :: xs).drop 10000) hdrop, ← hb, List.take_append_drop]

lemma conv_transpose2d_chunk_eq {α : Type} (prim : List α → List α)
    (hb : ∀ a b : List α, prim (a ++ b) = prim a ++ prim b) :
    ∀ (n : ℕ) (x : List α), x.length ≤ n → conv_transpose2d prim x = prim x := by
  intro n
  induction n with
  | zero =>
    intro x hx
    have hnil : x = [] := List.length_eq_zero.mp (Nat.le_zero.mp hx)
    subst hnil
    rw [conv_transpose2d, prim_nil prim hb]
  | succ n ih =>
    intro x hx
    match x with
    | [] => rw [conv_transpose2d, prim_nil prim hb]
    | a :: xs =>
      rw [conv_transpose2d]
      have hdrop : ((a :: xs).drop 10000).length ≤ n := by
        simp only [List.length_drop, List.length_cons]
        simp only [List.length_cons] at hx
        omega
      rw [ih ((a :: xs).drop 10000) hdrop, ← hb, List.take_append_drop]


lemma simple_applyS_histLens (w : SimpleDual) (applied : DualOp) :
    (w.applyS applied).histLens = w.histLens.map (fun L => L + 1) := by
  cases w with
  | lin s =>
    cases hb : s.bias with
    | none => simp [SimpleDual.applyS, SimpleDual.histLens, hb]
    | some bl => simp [SimpleDual.applyS, SimpleDual.histLens, hb]
  | convS s =>
    cases hb : s.bias with
    | none => simp [SimpleDual.applyS, SimpleDual.histLens, hb]
    | some bl => simp [SimpleDual.applyS, SimpleDual.histLens, hb]
  | seqS => rfl

lemma denseHistLens_apply (l : List (Option SimpleDual)) (applied : DualOp) :
    denseHistLens (l.map (fun ow => ow.map (fun w => w.applyS applied))) =
      (denseHistLens l).map (fun L => L + 1) := by
  induction l with
  | nil => rfl
  | cons ow rest ih =>
    cases ow with
    | none => simpa [denseHistLens] using ih
    | some w =>
      simp only [List.map_cons, denseHistLens, List.foldr_cons, Option.map_some']
      rw [List.map_append, simple_applyS_histLens]
      exact congrArg _ ih

lemma apply_histLens (target applied : DualOp) :
    (target.apply applied).histLens = target.histLens.map (fun L => L + 1) := by
  cases target with
  | ball s => simp [DualOp.apply, DualOp.histLens]
  | ballProj s => simp [DualOp.apply, DualOp.histLens]
  | linear s =>
    cases hb : s.bias with
    | none => simp [DualOp.apply, DualOp.histLens, hb]
    | some bl => simp [DualOp.apply, DualOp.histLens, hb]
  | convOp s =>
    cases hb : s.bias with
    | none => simp [DualOp.apply, DualOp.histLens, hb]
    | some bl => simp [DualOp.apply, DualOp.histLens, hb]
  | reluOp s =>
    by_cases hI : s.Iempty
    · simp [DualOp.apply, DualOp.histLens, hI]
    · simp [DualOp.apply, DualOp.histLens, hI]
  | reluProj s =>
    by_cases hI : s.Iempty
    · simp [DualOp.apply, DualOp.histLens, hI]
    · simp [DualOp.apply, DualOp.histLens, hI]
  | reshapeOp => rfl
  | seqOp => rfl
  | bnOp s => simp [DualOp.apply, DualOp.histLens]
  | denseOp s =>
    simp only [DualOp.apply, DualOp.histLens]
    exact denseHistLens_apply s.duals applied

lemma applyMany_histLens (target : DualOp) (ls : List DualOp) :
    (applyMany target ls).histLens =
      target.histLens.map (fun L => L + ls.length) := by
  induction ls generalizing target with
  | nil => simp [applyMany]
  | cons a rest ih =>
    simp only [applyMany, List.foldl_cons] at *
    rw [ih (target.apply a), apply_histLens, List.map_map]
    congr 1
    funext L
    simp only [Function.comp_apply, List.length_cons]
    omega

lemma constructed_histLens_one (op : DualOp) (h : Constructed op) :
    ∀ L ∈ op.histLens, L = 1 := by
  cases h with
  | ball n eps X => intro L hL; simp [DualOp.histLens] at hL; omega
  | ballProj n k eps X sample => intro L hL; simp [DualOp.histLens] at hL; omega
  | linear inF outF W b =>
    intro L hL
    cases b with
    | none => simp [DualOp.histLens] at hL
    | some v => simp [DualOp.histLens] at hL; omega
  | convOp inF outF W b =>
    intro L hL
    cases b with
    | none => simp [DualOp.histLens] at hL
    | some v => simp [DualOp.histLens] at hL; omega
  | reluOp n uI d zl =>
    intro L hL
    by_cases hE : (indsOf n uI).isEmpty
    · simp [DualOp.histLens, mkDualReLU, hE] at hL
    · simp [DualOp.histLens, mkDualReLU, hE] at hL; omega
  | reluProj n k uI d zl sample =>
    intro L hL
    by_cases hE : (indsOf n uI).isEmpty
    · simp [DualOp.histLens, mkDualReLUProj, hE] at hL
    · simp [DualOp.histLens, mkDualReLUProj, hE] at hL; omega
  | reshapeOp => intro L hL; simp [DualOp.histLens] at hL
  | seqOp => intro L hL; simp [DualOp.histLens] at hL
  | bnOp n D ds0 => intro L hL; simp [DualOp.histLens] at hL; omega
  | denseOp s hs => exact hs


/-- Claim C2: for every ReLU layer, given pre-activation bounds zl and zu,
the mask I marks exactly the activations with zu > 1e-5 and zl < -1e-5; the
slope d lies in [0,1], equals 1 where zl >= -1e-5, equals 0 where the
activation is provably inactive (zu <= 1e-5 and zl < -1e-5), and equals
zu/(zu-zl) on activations marked by I, where the tolerance keeps the
denominator zu - zl strictly above 2e-5. -/
theorem relu_classification (zl zu : V) (j : ℕ) :
    (reluI zl zu j = true ↔ tol < zu j ∧ zl j < -tol) ∧
    (0 ≤ reluD zl zu j ∧ reluD zl zu j ≤ 1) ∧
    (-tol ≤ zl j → reluD zl zu j = 1) ∧
    (zu j ≤ tol ∧ zl j < -tol → reluD zl zu j = 0) ∧
    (reluI zl zu j = true →
      reluD zl zu j = zu j / (zu j - zl j) ∧ 2 * tol < zu j - zl j) := by
  have hI : reluI zl zu j = true ↔ tol < zu j ∧ zl j < -tol := by
    simp [reluI]
  refine ⟨hI, ?_, ?_, ?_, ?_⟩
  · by_cases hz : -tol ≤ zl j
    · have hnotI : ¬ reluI zl zu j = true := by
        intro hIt
        have := (hI.mp hIt).2
        linarith
      simp only [reluD, if_pos hz, if_neg hnotI]
      norm_num
    · by_cases hIt : reluI zl zu j = true
      · obtain ⟨h1, h2⟩ := hI.mp hIt
        have htolpos : (0 : ℚ) < tol := by norm_num [tol]
        have hzu : 0 < zu j := lt_trans htolpos h1
        have hzl : zl j < 0 := by linarith
        have hden : 0 < zu j - zl j := by linarith
        simp only [reluD, if_neg hz, if_pos hIt, zero_add]
        constructor
        · positivity
        · rw [div_le_one hden]
          linarith
      · simp only [reluD, if_neg hz, if_neg hIt]
        norm_num
  · intro hz
    have hnotI : ¬ reluI zl zu j = true := by
      intro hIt
      have := (hI.mp hIt).2
      linarith
    simp only [reluD, if_pos hz, if_neg hnotI, add_zero]
  · rintro ⟨h1, h2⟩
    have hz : ¬ -tol ≤ zl j := by linarith
    have hnotI : ¬ reluI zl zu j = true := by
      intro hIt
      have := (hI.mp hIt).1
      linarith
    simp only [reluD, if_neg hz, if_neg hnotI, add_zero]
  · intro hIt
    obtain ⟨h1, h2⟩ := hI.mp hIt
    have hz : ¬ -tol ≤ zl j := by linarith
    constructor
    · simp only [reluD, if_neg hz, if_pos hIt, zero_add]
    · have htolpos : (0 : ℚ) < tol := by norm_num [tol]
      linarith

/-- Witness for relu_classification: on zl = -1, zu = 1, the activation is
unstable and the slope is exactly 1/2. -/
theorem relu_classification_witness :
    reluI (fun _ => -1) (fun _ => 1) 0 = true ∧
    reluD (fun _ => -1) (fun _ => 1) 0 = 1 / 2 := by
  have h := relu_classification (fun _ => -1) (fun _ => 1) 0
  have hI : reluI (fun _ => -1) (fun _ => 1) 0 = true := by
    apply h.1.mpr
    constructor <;> norm_num [tol]
  refine ⟨hI, ?_⟩
  have hd := (h.2.2.2.2 hI).1
  rw [hd]
  norm_num

/-- Claim C10: the internally chunked convolution helpers, which split the
batch dimension into fixed-size sub-batches, apply the convolution primitive
to each, and concatenate, return exactly the same tensor as a single
unchunked call of the (transposed) convolution primitive on the whole input.
The primitive is assumed to act independently per batch element, i.e. to
distribute over batch concatenation, which is the semantics of F.conv2d and
F.conv_transpose2d for a fixed weight, stride and padding. -/
theorem conv2d_chunked_eq_unchunked {α : Type} (prim primT : List α → List α)
    (hb : ∀ a b : List α, prim (a ++ b) = prim a ++ prim b)
    (hbT : ∀ a b : List α, primT (a ++ b) = primT a ++ primT b)
    (x : List α) :
    conv2d prim x = prim x ∧ conv_transpose2d primT x = primT x :=
  ⟨conv2d_chunk_eq prim hb x.length x le_rfl,
   conv_transpose2d_chunk_eq primT hbT x.length x le_rfl⟩

/-- Witness for conv2d_chunked_eq_unchunked at a concrete per-element
primitive and concrete batch. -/
theorem conv2d_chunked_eq_unchunked_witness :
    conv2d (List.map (fun q : ℚ => q + 1)) [1, 2, 3] =
      List.map (fun q : ℚ => q + 1) [1, 2, 3] ∧
    conv_transpose2d (List.map (fun q : ℚ => 2 * q)) [1, 2, 3] =
      List.map (fun q : ℚ => 2 * q) [1, 2, 3] :=
  conv2d_chunked_eq_unchunked (List.map (fun q : ℚ => q + 1))
    (List.map (fun q : ℚ => 2 * q))
    (fun a b => List.map_append _ a b) (fun a b => List.map_append _ a b)
    [1, 2, 3]

/- ------------------------------------------------------------------
Claim C3: the DualReLU initial certificate and apply.
------------------------------------------------------------------ -/

lemma scatter_go (inds : List ℕ) (d : V) (m : ℕ) (A : Mx) (r c : ℕ) :
    ((List.range m).foldl
      (fun B t => updateM B t (inds.getD t 0) (d (inds.getD t 0))) A) r c =
      if r < m ∧ c = inds.getD r 0 then d (inds.getD r 0) else A r c := by
  induction m with
  | zero => simp
  | succ m ih =>
    rw [List.range_succ, List.foldl_append, List.foldl_cons, List.foldl_nil]
    show (if r = m ∧ c = inds.getD m 0 then d (inds.getD m 0)
      else ((List.range m).foldl
        (fun B t => updateM B t (inds.getD t 0) (d (inds.getD t 0))) A) r c) = _
    by_cases h1 : r = m ∧ c = inds.getD m 0
    · obtain ⟨hr, hc⟩ := h1
      subst hr
      rw [if_pos ⟨rfl, hc⟩, if_pos ⟨Nat.lt_succ_self _, hc⟩]
    · rw [if_neg h1, ih]
      by_cases h2 : r < m ∧ c = inds.getD r 0
      · rw [if_pos h2, if_pos ⟨Nat.lt_succ_of_lt h2.1, h2.2⟩]
      · rw [if_neg h2, if_neg ?_]
        rintro ⟨hlt, hc⟩
        rcases Nat.lt_succ_iff_lt_or_eq.mp hlt with hlt2 | hq
        · exact h2 ⟨hlt2, hc⟩
        · subst hq
          exact h1 ⟨rfl, hc⟩

lemma scatterDiag_entry (inds : List ℕ) (d : V) (r c : ℕ) :
    scatterDiag inds d r c =
      if r < inds.length ∧ c = inds.getD r 0 then d (inds.getD r 0) else 0 :=
  scatter_go inds d inds.length zeroM r c

lemma getLastD_map_app (xs : List Mx) (dflt : Mx) (r : ℕ) :
    (xs.map (fun A => A r)).getLastD (dflt r) = (xs.getLastD dflt) r := by
  induction xs generalizing dflt with
  | nil => rfl
  | cons a l ih =>
    simp only [List.map_cons, List.getLastD_cons]
    exact ih a

lemma affineM_reluOp (sB : DualReLU) (xs : List Mx) :
    DualOp.affineM (.reluOp sB) xs = fun r c => sB.d c * lastM xs r c := by
  funext r c
  simp only [DualOp.affineM, DualOp.affineV]
  show sB.d c * (xs.map (fun A => A r)).getLastD (zeroM r) c = _
  rw [getLastD_map_app xs zeroM r]
  rfl

lemma apply_reluOp_form (s sB : DualReLU) (h : s.Iempty = false) :
    DualOp.apply (.reluOp s) (.reluOp sB) =
      .reluOp { s with nus := s.nus ++ [fun r c => sB.d c * lastM s.nus r c] } := by
  simp only [DualOp.apply, h, Bool.false_eq_true, if_false]
  rw [affineM_reluOp]

/-- Claim C3 counterexample: DualReLU.__init__ seeds the certificate row of
an unstable activation with d (the slope itself, scattered from d[I]), not
with d * zl.  Concretely with one unstable activation, d = 2 and zl = -3,
the seeded entry is 2 while d * zl = -6. -/
theorem relu_seed_counterexample :
    headM (mkDualReLU 1 (fun j => j == 0) (fun _ => (2 : ℚ))
        (fun _ => (-3 : ℚ))).nus 0 0 ≠
      (fun _ => (2 : ℚ)) 0 * (fun _ => (-3 : ℚ)) 0 := by
  have hinds : indsOf 1 (fun j => j == 0) = [0] := by decide
  have hsc : scatterDiag [0] (fun _ => (2 : ℚ)) 0 0 = 2 := by
    rw [scatterDiag_entry]
    norm_num
  simp only [mkDualReLU, hinds]
  norm_num [headM, hsc]

/-- Claim C3 as amended: for every exact ReLU dual operator constructed with
a non-empty unstable set, the initial certificate has one row per unstable
activation whose only non-zero entry, at that activation's coordinate,
equals d (not d * zl) for that activation, and a later apply of a ReLU dual
layer multiplies the most recent certificate entry elementwise by that
layer's d on the rows of the unstable index set. -/
theorem relu_certificate_seed (n : ℕ) (uI : ℕ → Bool) (d zl : V)
    (sB : DualReLU) (h : indsOf n uI ≠ []) :
    (mkDualReLU n uI d zl).Iempty = false ∧
    (mkDualReLU n uI d zl).nus.length = 1 ∧
    (∀ r, r < (mkDualReLU n uI d zl).inds.length →
      headM (mkDualReLU n uI d zl).nus r ((mkDualReLU n uI d zl).inds.getD r 0) =
        d ((mkDualReLU n uI d zl).inds.getD r 0)) ∧
    (∀ r c, r < (mkDualReLU n uI d zl).inds.length →
      c ≠ (mkDualReLU n uI d zl).inds.getD r 0 →
      headM (mkDualReLU n uI d zl).nus r c = 0) ∧
    (∀ s : DualReLU, s.Iempty = false →
      DualOp.apply (.reluOp s) (.reluOp sB) =
        .reluOp { s with nus := s.nus ++ [fun r c => sB.d c * lastM s.nus r c] }) := by
  have hne : ¬ ((indsOf n uI).isEmpty = true) := by
    intro hE
    cases hind : indsOf n uI with
    | nil => exact h hind
    | cons a l => rw [hind] at hE; simp at hE
  have hmk : mkDualReLU n uI d zl =
      ⟨n, uI, d, zl, false, indsOf n uI, [scatterDiag (indsOf n uI) d]⟩ := by
    unfold mkDualReLU
    rw [if_neg hne]
  rw [hmk]
  refine ⟨rfl, rfl, ?_, ?_, ?_⟩
  · intro r hr
    show scatterDiag (indsOf n uI) d r _ = _
    rw [scatterDiag_entry, if_pos ⟨hr, rfl⟩]
  · intro r c hr hc
    show scatterDiag (indsOf n uI) d r c = 0
    rw [scatterDiag_entry, if_neg (fun hh => hc hh.2)]
  · intro s hs
    exact apply_reluOp_form s sB hs

/-- Witness for relu_certificate_seed at the concrete one-activation input
of the counterexample. -/
theorem relu_certificate_seed_witness :
    indsOf 1 (fun j => j == 0) ≠ [] ∧
    headM (mkDualReLU 1 (fun j => j == 0) (fun _ => (2 : ℚ))
        (fun _ => (-3 : ℚ))).nus 0
        ((mkDualReLU 1 (fun j => j == 0) (fun _ => (2 : ℚ))
          (fun _ => (-3 : ℚ))).inds.getD 0 0) =
      (fun _ => (2 : ℚ))
        ((mkDualReLU 1 (fun j => j == 0) (fun _ => (2 : ℚ))
          (fun _ => (-3 : ℚ))).inds.getD 0 0) := by
  refine ⟨by decide, ?_⟩
  have h := relu_certificate_seed 1 (fun j => j == 0) (fun _ => (2 : ℚ))
    (fun _ => (-3 : ℚ))
    ⟨1, fun _ => false, zeroV, zeroV, true, [], []⟩ (by decide)
  exact h.2.2.1 0 (by decide)

/- ------------------------------------------------------------------
Claim C4: the randomized fval interval forms.
------------------------------------------------------------------ -/

/-- Claim C4 counterexample: InfBallProj.fval with no direction does not
have the bias-correction form ((-median - no)/2, (median - no)/2) for any
no-mass term: at nu_x = [2], one certificate row of value 3 and epsilon = 1
it returns (-1, 5), whose width 6 differs from the median 3 forced by that
form. -/
theorem randomized_fval_counterexample :
    ¬ ∃ no : ℚ,
      (DualOp.fval0 (.ballProj ⟨1, 1, 1, [fun _ => 2], [fun _ _ => 3]⟩)).1 0 =
        (-(medAbsRow 1 (lastM [(fun _ _ => (3 : ℚ))]) 0) - no) / 2 ∧
      (DualOp.fval0 (.ballProj ⟨1, 1, 1, [fun _ => 2], [fun _ _ => 3]⟩)).2 0 =
        (medAbsRow 1 (lastM [(fun _ _ => (3 : ℚ))]) 0 - no) / 2 := by
  rintro ⟨no, h1, h2⟩
  have em : medAbsRow 1 (lastM [(fun _ _ => (3 : ℚ))]) 0 = 3 := by
    norm_num [medAbsRow, medianList, lastM, List.getLastD, List.range_succ,
      List.insertionSort, List.orderedInsert]
  have e1 : (DualOp.fval0 (.ballProj ⟨1, 1, 1, [fun _ => 2], [fun _ _ => 3]⟩)).1 0 =
      (-1 : ℚ) := by
    simp only [DualOp.fval0]
    norm_num [lastV, List.getLastD, em]
  have e2 : (DualOp.fval0 (.ballProj ⟨1, 1, 1, [fun _ => 2], [fun _ _ => 3]⟩)).2 0 =
      (5 : ℚ) := by
    simp only [DualOp.fval0]
    norm_num [lastV, List.getLastD, em]
  rw [e1, em] at h1
  rw [e2, em] at h2
  linarith

/-- Claim C4 as amended: with no direction, the randomized k-projection ReLU
operator with a non-empty certificate returns the median-of-k bounds with
the bias correction ((-median - no)/2, (median - no)/2), no being the
accumulated no-mass term; the randomized uncertainty-set representative
instead returns nu_x minus/plus epsilon times the median, with no no-mass
correction. -/
theorem randomized_fval_forms (s : InfBallProj) (t : DualReLUProj) (j : ℕ)
    (h : t.Iempty = false) :
    (DualOp.fval0 (.ballProj s)).1 j =
      lastV s.nu_x j - s.epsilon * medAbsRow s.k (lastM s.nu) j ∧
    (DualOp.fval0 (.ballProj s)).2 j =
      lastV s.nu_x j + s.epsilon * medAbsRow s.k (lastM s.nu) j ∧
    (DualOp.fval0 (.reluProj t)).1 j =
      (-(medAbsRow t.k (lastM t.nus) j) - lastV t.nu_ones j) / 2 ∧
    (DualOp.fval0 (.reluProj t)).2 j =
      (medAbsRow t.k (lastM t.nus) j - lastV t.nu_ones j) / 2 := by
  refine ⟨rfl, rfl, ?_, ?_⟩ <;>
    simp [DualOp.fval0, h]

/-- Witness for randomized_fval_forms at concrete states. -/
theorem randomized_fval_forms_witness :
    (⟨1, 1, fun _ => true, zeroV, zeroV, false, [zeroM], [zeroV]⟩ :
        DualReLUProj).Iempty = false ∧
    (DualOp.fval0 (.ballProj ⟨1, 1, 1, [fun _ => 2], [fun _ _ => 3]⟩)).1 0 =
      lastV [fun _ => (2 : ℚ)] 0 -
        (1 : ℚ) * medAbsRow 1 (lastM [fun _ _ => (3 : ℚ)]) 0 :=
  ⟨rfl,
   (randomized_fval_forms ⟨1, 1, 1, [fun _ => 2], [fun _ _ => 3]⟩
     ⟨1, 1, fun _ => true, zeroV, zeroV, false, [zeroM], [zeroV]⟩ 0 rfl).1⟩

/- ------------------------------------------------------------------
Claim C6: empty-relaxation state is inert.
------------------------------------------------------------------ -/

/-- Claim C6: a ReLU dual operator (exact or randomized) whose unstable mask
has no set entries enters the empty-relaxation state: apply leaves it
unchanged, fval with no direction returns (0, 0), fval with a direction
returns 0, and the randomized constructor reports the warning diagnostic. -/
theorem relu_empty_noop (n k : ℕ) (uI : ℕ → Bool) (d zl : V) (sample : Mx)
    (applied : DualOp) (nu nu_prev : V) (h : indsOf n uI = []) :
    (mkDualReLU n uI d zl).Iempty = true ∧
    DualOp.apply (.reluOp (mkDualReLU n uI d zl)) applied =
      .reluOp (mkDualReLU n uI d zl) ∧
    DualOp.fval0 (.reluOp (mkDualReLU n uI d zl)) = (zeroV, zeroV) ∧
    DualOp.fvalDir (.reluOp (mkDualReLU n uI d zl)) nu nu_prev = 0 ∧
    (mkDualReLUProj n k uI d zl sample).2 = true ∧
    (mkDualReLUProj n k uI d zl sample).1.Iempty = true ∧
    DualOp.apply (.reluProj (mkDualReLUProj n k uI d zl sample).1) applied =
      .reluProj (mkDualReLUProj n k uI d zl sample).1 ∧
    DualOp.fval0 (.reluProj (mkDualReLUProj n k uI d zl sample).1) =
      (zeroV, zeroV) ∧
    DualOp.fvalDir (.reluProj (mkDualReLUProj n k uI d zl sample).1) nu nu_prev
      = 0 := by
  have hE : (indsOf n uI).isEmpty = true := by simp [h]
  simp [mkDualReLU, mkDualReLUProj, hE, DualOp.apply, DualOp.fval0,
    DualOp.fvalDir]

/-- Witness for relu_empty_noop: an all-stable mask over one activation. -/
theorem relu_empty_noop_witness :
    indsOf 1 (fun _ => false) = [] ∧
    (mkDualReLU 1 (fun _ => false) zeroV zeroV).Iempty = true ∧
    (mkDualReLUProj 1 1 (fun _ => false) zeroV zeroV zeroM).2 = true := by
  have h := relu_empty_noop 1 1 (fun _ => false) zeroV zeroV zeroM
    .reshapeOp zeroV zeroV (by decide)
  exact ⟨by decide, h.1, h.2.2.2.2.1⟩

/- ------------------------------------------------------------------
Claim C7: history lists grow by exactly one per apply.
------------------------------------------------------------------ -/

/-- Claim C7: for every dual operator that owns certificate history lists,
after any sequence of apply calls every owned list's length equals the
number of applies plus one for the initial state. -/
theorem history_length_invariant (op : DualOp) (ls : List DualOp)
    (h : Constructed op) (L : ℕ)
    (hL : L ∈ (applyMany op ls).histLens) : L = ls.length + 1 := by
  rw [applyMany_histLens] at hL
  obtain ⟨L0, hL0, rfl⟩ := List.mem_map.mp hL
  rw [constructed_histLens_one op h L0 hL0]
  omega

/-- Witness for history_length_invariant: a biased linear dual pushed
through two later layers has bias history length 3. -/
theorem history_length_invariant_witness :
    Constructed (.linear ⟨1, 1, zeroM, Option.map (fun v => [v]) (some zeroV)⟩) ∧
    (3 : ℕ) = [DualOp.reshapeOp, DualOp.seqOp].length + 1 :=
  ⟨Constructed.linear 1 1 zeroM (some zeroV),
   history_length_invariant
     (.linear ⟨1, 1, zeroM, Option.map (fun v => [v]) (some zeroV)⟩)
     [DualOp.reshapeOp, DualOp.seqOp]
     (Constructed.linear 1 1 zeroM (some zeroV)) 3 (by decide)⟩

/- ------------------------------------------------------------------
Claim C5: the chain always starts with the exact InfBall representative.
------------------------------------------------------------------ -/

lemma isBallProj_apply (t d : DualOp) : (t.apply d).isBallProj = t.isBallProj := by
  cases t <;> first
    | rfl
    | (simp only [DualOp.apply]; split <;> rfl)

lemma headD_append_ne {α : Type} (l : List α) (a d : α) (h : l ≠ []) :
    (l ++ [a]).headD d = l.headD d := by
  cases l with
  | nil => exact absurd rfl h
  | cons x xs => rfl

lemma head?_set_ne {α : Type} (l : List α) (i : ℕ) (a : α) (h : i ≠ 0) :
    (l.set i a).head? = l.head? := by
  cases l with
  | nil => rfl
  | cons x xs =>
    cases i with
    | zero => exact absurd rfl h
    | succ n => rfl

lemma chainInv_step (n0 : ℕ) (eps : ℚ) (X : V) (chain : List DualOp)
    (d : DualOp) (hinv : ChainInv n0 eps X chain)
    (hd : d.isBallProj = false) :
    ChainInv n0 eps X (chain.map (fun t => t.apply d) ++ [d]) := by
  obtain ⟨⟨s, hhead, hn, heps, hx, hxne, h1, h1ne⟩, hall⟩ := hinv
  constructor
  · cases chain with
    | nil => simp at hhead
    | cons c0 rest =>
      simp only [List.head?_cons, Option.some_inj] at hhead
      subst hhead
      refine ⟨⟨s.n, s.epsilon, s.nu_x ++ [DualOp.affineV d s.nu_x],
        s.nu_1 ++ [DualOp.affineM d s.nu_1]⟩, rfl, hn, heps, ?_, by simp, ?_, by simp⟩
      · show (s.nu_x ++ [DualOp.affineV d s.nu_x]).headD zeroV = X
        rw [headD_append_ne s.nu_x _ zeroV hxne]
        exact hx
      · show (s.nu_1 ++ [DualOp.affineM d s.nu_1]).headD zeroM = eyeM n0
        rw [headD_append_ne s.nu_1 _ zeroM h1ne]
        exact h1
  · intro op hop
    rcases List.mem_append.mp hop with hmem | hlast
    · obtain ⟨t, ht, rfl⟩ := List.mem_map.mp hmem
      rw [isBallProj_apply]
      exact hall t ht
    · rw [List.mem_singleton.mp hlast]
      exact hd

lemma denseRewire_inv (n0 : ℕ) (eps : ℚ) (X : V)
    (chain chain2 : List DualOp) (wlen i : ℕ) (dl : Option SimpleDual)
    (h : denseRewire chain wlen i dl = .ok chain2)
    (hinv : ChainInv n0 eps X chain) : ChainInv n0 eps X chain2 := by
  unfold denseRewire at h
  by_cases hiw : i + 1 < wlen
  · rw [if_pos hiw] at h
    cases dl with
    | none =>
      cases h
      exact hinv
    | some w =>
      dsimp only at h
      by_cases hlen : chain.length + i + 1 < wlen
      · rw [if_pos hlen] at h
        cases h
      · rw [if_neg hlen] at h
        cases hscrut : chain.getD (chain.length + i + 1 - wlen) .seqOp with
        | denseOp s =>
          simp only [hscrut] at h
          cases h
          obtain ⟨⟨sb, hhead, hrest⟩, hall⟩ := hinv
          have hp0 : chain.length + i + 1 - wlen ≠ 0 := by
            intro hp
            rw [hp] at hscrut
            cases chain with
            | nil => simp at hhead
            | cons c0 r =>
              simp only [List.head?_cons, Option.some_inj] at hhead
              rw [List.getD_cons_zero] at hscrut
              rw [hhead] at hscrut
              cases hscrut
          refine ⟨⟨sb, ?_, hrest⟩, ?_⟩
          · rw [head?_set_ne _ _ _ hp0]
            exact hhead
          · intro op hop
            rcases List.mem_or_eq_of_mem_set hop with hmem | hlast
            · exact hall op hmem
            · rw [hlast]
              rfl
        | ball s => simp only [hscrut] at h; cases h
        | ballProj s => simp only [hscrut] at h; cases h
        | linear s => simp only [hscrut] at h; cases h
        | convOp s => simp only [hscrut] at h; cases h
        | reluOp s => simp only [hscrut] at h; cases h
        | reluProj s => simp only [hscrut] at h; cases h
        | reshapeOp => simp only [hscrut] at h; cases h
        | seqOp => simp only [hscrut] at h; cases h
        | bnOp s => simp only [hscrut] at h; cases h
  · rw [if_neg hiw] at h
    cases h
    exact hinv

lemma mkDualDenseGo_inv (n0 : ℕ) (eps : ℚ) (X : V) (wlen : ℕ) :
    ∀ (ws : List (Option DenseW)) (i : ℕ) (chain : List DualOp)
      (duals duals2 : List (Option SimpleDual)) (chain2 : List DualOp),
      mkDualDenseGo wlen chain duals i ws = .ok (duals2, chain2) →
      ChainInv n0 eps X chain → ChainInv n0 eps X chain2 := by
  intro ws
  induction ws with
  | nil =>
    intro i chain duals duals2 chain2 h hinv
    simp only [mkDualDenseGo] at h
    cases h
    exact hinv
  | cons w rest ih =>
    intro i chain duals duals2 chain2 h hinv
    simp only [mkDualDenseGo] at h
    cases hsd : mkSimpleDual w with
    | error e => simp only [hsd] at h; cases h
    | ok dl =>
      simp only [hsd] at h
      cases hrw : denseRewire chain wlen i dl with
      | error e => simp only [hrw] at h; cases h
      | ok chainB =>
        simp only [hrw] at h
        exact ih (i + 1) chainB (duals ++ [dl]) duals2 chain2 h
          (denseRewire_inv n0 eps X chain chainB wlen i dl hrw hinv)

lemma mkDualDense_inv (n0 : ℕ) (eps : ℚ) (X : V) (ws : List (Option DenseW))
    (chain chain2 : List DualOp) (s : DualDense)
    (h : mkDualDense ws chain = .ok (s, chain2))
    (hinv : ChainInv n0 eps X chain) : ChainInv n0 eps X chain2 := by
  unfold mkDualDense at h
  cases hgo : mkDualDenseGo ws.length chain [] 0 ws with
  | error e => simp only [hgo] at h; cases h
  | ok pr =>
    obtain ⟨duals2, chainB⟩ := pr
    simp only [hgo] at h
    cases hlast : duals2.getLast? with
    | none => simp only [hlast] at h; cases h
    | some dlast =>
      simp only [hlast] at h
      cases h
      exact mkDualDenseGo_inv n0 eps X ws.length ws 0 chain [] duals2 chain2
        hgo hinv

lemma mkDualLayer_inv (n0 : ℕ) (eps : ℚ) (X : V) (p : BuildParams) (i : ℕ)
    (chain : List DualOp) (l : Layer) (d : DualOp) (chain2 : List DualOp)
    (h : mkDualLayer p i chain l = .ok (d, chain2))
    (hinv : ChainInv n0 eps X chain) :
    d.isBallProj = false ∧ ChainInv n0 eps X chain2 := by
  cases l with
  | linearL inF outF W b =>
    simp only [mkDualLayer, mkDualLinear] at h
    cases h
    exact ⟨rfl, hinv⟩
  | conv2dL inF outF W b =>
    simp only [mkDualLayer, mkDualConv2d] at h
    cases h
    exact ⟨rfl, hinv⟩
  | reluL n =>
    simp only [mkDualLayer] at h
    cases hpl : p.l1_proj with
    | none =>
      simp only [hpl] at h
      cases h
      exact ⟨rfl, hinv⟩
    | some kk =>
      simp only [hpl] at h
      split at h
      · cases h
        exact ⟨rfl, hinv⟩
      · cases h
        exact ⟨rfl, hinv⟩
  | flattenL inF outF =>
    simp only [mkDualLayer] at h
    cases h
    exact ⟨rfl, hinv⟩
  | denseL ws =>
    simp only [mkDualLayer] at h
    cases hmd : mkDualDense ws chain with
    | error e => simp only [hmd] at h; cases h
    | ok pr =>
      obtain ⟨sd, chainB⟩ := pr
      simp only [hmd] at h
      cases h
      exact ⟨rfl, mkDualDense_inv n0 eps X ws chain chain2 sd hmd hinv⟩
  | batchNormL n w b mu denom =>
    simp only [mkDualLayer] at h
    cases h
    exact ⟨rfl, hinv⟩
  | unknownL name =>
    simp only [mkDualLayer] at h
    cases h

lemma buildGo_inv (n0 : ℕ) (eps : ℚ) (X : V) (p : BuildParams) :
    ∀ (rest : List Layer) (i : ℕ) (chain ch : List DualOp)
      (lst : Option DualOp),
      buildGo p i rest chain = .ok (ch, lst) → ChainInv n0 eps X chain →
      ChainInv n0 eps X ch ∧
        ∀ op : DualOp, lst = some op → op.isBallProj = false := by
  intro rest
  induction rest with
  | nil =>
    intro i chain ch lst h hinv
    simp only [buildGo] at h
    cases h
    exact ⟨hinv, by intro op hop; cases hop⟩
  | cons l rest ih =>
    intro i chain ch lst h hinv
    cases rest with
    | nil =>
      simp only [buildGo] at h
      cases hml : mkDualLayer p i chain l with
      | error e => simp only [hml] at h; cases h
      | ok pr =>
        obtain ⟨d, chain2⟩ := pr
        simp only [hml] at h
        cases h
        obtain ⟨hd, hinv2⟩ := mkDualLayer_inv n0 eps X p i chain l d ch
          hml hinv
        refine ⟨hinv2, ?_⟩
        intro op hop
        cases hop
        exact hd
    | cons l2 rest2 =>
      simp only [buildGo] at h
      cases hml : mkDualLayer p i chain l with
      | error e => simp only [hml] at h; cases h
      | ok pr =>
        obtain ⟨d, chain2⟩ := pr
        simp only [hml] at h
        obtain ⟨hd, hinv2⟩ := mkDualLayer_inv n0 eps X p i chain l d chain2
          hml hinv
        exact ih (i + 1) (chain2.map (fun t => t.apply d) ++ [d]) ch lst h
          (chainInv_step n0 eps X chain2 d hinv2 hd)

/-- Claim C5: whatever l1_proj, l1_type, l1_eps and m are supplied, a
successfully built dual chain always starts with the exact identity-basis
InfBall representative of the input set (with its nominal input, radius and
identity certificate intact, so the input-set L1 term of the dual objective
is the exact sum of absolute values), and the randomized InfBallProj
representative appears nowhere in the chain nor as the last layer. -/
theorem infball_always_exact (net : List Layer) (n0 : ℕ) (X : V) (eps : ℚ)
    (p : BuildParams) (ch : List DualOp) (lst : Option DualOp)
    (h : DualNetBounds net n0 X eps p = .ok (ch, lst)) :
    (∃ s : InfBall, ch.head? = some (.ball s) ∧ s.n = n0 ∧ s.epsilon = eps ∧
      headV s.nu_x = X ∧ headM s.nu_1 = eyeM n0 ∧
      ∀ nu nup : V, DualOp.fvalDir (.ball s) nu nup =
        -(dot n0 nu X) - eps * l1norm n0 nu) ∧
    (∀ op ∈ ch, op.isBallProj = false) ∧
    (∀ op : DualOp, lst = some op → op.isBallProj = false) := by
  have h0 : ChainInv n0 eps X [.ball ⟨n0, eps, [X], [eyeM n0]⟩] := by
    refine ⟨⟨⟨n0, eps, [X], [eyeM n0]⟩, rfl, rfl, rfl, rfl, by simp, rfl, by simp⟩, ?_⟩
    intro op hop
    rw [List.mem_singleton.mp hop]
    rfl
  obtain ⟨⟨s, hs, hn, heps, hx, hxne, h1, h1ne⟩, hall⟩ :=
    (buildGo_inv n0 eps X p net 0 _ ch lst h h0).1
  refine ⟨⟨s, hs, hn, heps, hx, h1, ?_⟩, hall,
    (buildGo_inv n0 eps X p net 0 _ ch lst h h0).2⟩
  intro nu nup
  show -(dot s.n nu (headV s.nu_x)) - s.epsilon * l1norm s.n nu = _
  rw [hn, heps, hx]

/-- Witness for infball_always_exact on a one-layer linear network. -/
theorem infball_always_exact_witness :
    DualNetBounds [Layer.linearL 1 1 zeroM none] 1 zeroV 0
        ⟨none, "", none, none, fun _ => zeroM⟩ =
      .ok ([.ball ⟨1, 0, [zeroV], [eyeM 1]⟩],
        some (.linear ⟨1, 1, zeroM, none⟩)) ∧
    (∀ op ∈ ([.ball ⟨1, 0, [zeroV], [eyeM 1]⟩] : List DualOp),
      op.isBallProj = false) := by
  refine ⟨rfl, ?_⟩
  exact (infball_always_exact [Layer.linearL 1 1 zeroM none] 1 zeroV 0
    ⟨none, "", none, none, fun _ => zeroM⟩
    [.ball ⟨1, 0, [zeroV], [eyeM 1]⟩]
    (some (.linear ⟨1, 1, zeroM, none⟩)) rfl).2.1

/- ------------------------------------------------------------------
Claim C8: evaluating g leaves the chain unchanged.
------------------------------------------------------------------ -/

lemma fvalDirS_snd (op : DualOp) (nu nup : V) :
    (op.fvalDirS nu nup).2 = op := by
  cases op <;> rfl

lemma foldr_sum_split (l : List (ℚ × DualOp)) :
    l.foldr (fun r acc => (r.1 + acc.1, r.2 :: acc.2)) ((0 : ℚ), ([] : List DualOp)) =
      ((l.map Prod.fst).sum, l.map Prod.snd) := by
  induction l with
  | nil => rfl
  | cons a t ih => simp [ih]

lemma foldl_snoc_length (l : List DualOp) :
    ∀ acc : List V,
      (l.foldl (fun a op => a ++ [op.affineT a]) acc).length =
        acc.length + l.length := by
  induction l with
  | nil => intro acc; simp
  | cons x t ih =>
    intro acc
    rw [List.foldl_cons, ih]
    simp
    omega

lemma gNus_length (chain : List DualOp) (last : DualOp) (c : V) :
    (gNus chain last c).length = (chain.drop 1).length + 2 := by
  unfold gNus
  rw [foldl_snoc_length]
  simp
  omega

lemma gS_eq (chain : List DualOp) (last : DualOp) (c : V) :
    gS chain last c = (g chain last c, chain ++ [last]) := by
  unfold gS g
  rw [foldr_sum_split, List.map_map, List.map_map]
  have hlen : (chain ++ [last]).length ≤
      (((zeroV :: (gNus chain last c).reverse)).zip
        ((gNus chain last c).reverse)).length := by
    rw [List.length_zip, List.length_cons, List.length_reverse, gNus_length,
      Nat.min_eq_right (Nat.le_succ _)]
    simp only [List.length_append, List.length_drop, List.length_singleton]
    omega
  have h2 : ((chain ++ [last]).zip
      (((zeroV :: (gNus chain last c).reverse)).zip
        ((gNus chain last c).reverse))).map
      (Prod.snd ∘ fun t => t.1.fvalDirS t.2.2 t.2.1) =
      chain ++ [last] := by
    rw [show (Prod.snd ∘ fun t : DualOp × (V × V) => t.1.fvalDirS t.2.2 t.2.1) =
      (fun t : DualOp × (V × V) => t.1) from ?_]
    · exact List.map_fst_zip _ _ hlen
    · funext t
      exact fvalDirS_snd t.1 t.2.2 t.2.1
  rw [h2]
  rfl

lemma evalStep_eq (chain : List DualOp) (last : DualOp) (c : V) :
    evalStep (chain, last) c = (g chain last c, (chain, last)) := by
  unfold evalStep
  rw [gS_eq]
  simp

/-- Claim C8: the bound evaluation g does not mutate the chain: the
state-threaded sweep hands back exactly the operators it was given, so
evaluating any sequence of objectives on one chain returns the same values
as evaluating each objective on the original (freshly built) chain, and the
final state is the original chain. -/
theorem g_no_mutation (chain : List DualOp) (last : DualOp) (c : V)
    (cs : List V) :
    gS chain last c = (g chain last c, chain ++ [last]) ∧
    evalMany (chain, last) cs = (cs.map (g chain last), (chain, last)) := by
  refine ⟨gS_eq chain last c, ?_⟩
  induction cs with
  | nil => rfl
  | cons c2 t ih =>
    simp only [evalMany, evalStep_eq, List.map_cons]
    rw [ih]

/- ------------------------------------------------------------------
Claim C9: characterisation of construction failure.
------------------------------------------------------------------ -/

lemma set_getD_self {α : Type} (l : List α) (i : ℕ) (d : α) (h : i < l.length) :
    l.set i (l.getD i d) = l := by
  ext1 j
  rw [List.getElem?_set]
  split
  case isTrue hj =>
    subst hj
    simp [List.getD_eq_getElem?_getD, List.getElem?_eq_getElem h]
  case isFalse => rfl

lemma kindOf_apply (t d : DualOp) : kindOf (t.apply d) = kindOf t := by
  cases t <;> first
    | rfl
    | (simp only [DualOp.apply]; split <;> rfl)

lemma getD_map_kind (l : List DualOp) (i : ℕ) :
    (l.map kindOf).getD i .seqK = kindOf (l.getD i .seqOp) := by
  show (l.map kindOf).getD i (kindOf .seqOp) = kindOf (l.getD i .seqOp)
  simp [List.getD_eq_getElem?_getD, List.getElem?_map]

lemma getD_map_layerKind (l : List Layer) (i : ℕ) :
    (l.map layerKind).getD i .seqK = layerKind (l.getD i (.unknownL "")) := by
  show (l.map layerKind).getD i (layerKind (.unknownL "")) = _
  simp [List.getD_eq_getElem?_getD, List.getElem?_map]

lemma getD_take_lt {α : Type} (l : List α) (i k : ℕ) (d : α) (h : i < k) :
    (l.take k).getD i d = l.getD i d := by
  rw [List.getD_eq_getElem?_getD, List.getD_eq_getElem?_getD,
    List.getElem?_take, if_pos h]

lemma layerKind_dense_iff (l : Layer) :
    layerKind l = .denseK ↔ l.isDenseL = true := by
  cases l <;> simp [layerKind, Layer.isDenseL]

lemma mkSimpleDual_ok_iff (w : Option DenseW) :
    (∃ dl, mkSimpleDual w = .ok dl) ↔ denseWBad w = false := by
  cases w with
  | none => simp [mkSimpleDual, denseWBad]
  | some dw => cases dw <;> simp [mkSimpleDual, denseWBad]

lemma mkSimpleDual_isSome (w : Option DenseW) (dl : Option SimpleDual)
    (h : mkSimpleDual w = .ok dl) : dl.isSome = w.isSome := by
  cases w with
  | none =>
    simp only [mkSimpleDual] at h
    cases h
    rfl
  | some dw =>
    cases dw <;> simp only [mkSimpleDual] at h
    case linW => cases h; rfl
    case convW => cases h; rfl
    case seqEmptyW => cases h; rfl
    case reluW => cases h
    case otherW => cases h

lemma denseRewire_ok_iff (chain : List DualOp) (wlen i : ℕ)
    (w : Option DenseW) (dl : Option SimpleDual)
    (hsome : dl.isSome = w.isSome) :
    (∃ c2, denseRewire chain wlen i dl = .ok c2) ↔
      rewireBadChainW chain wlen i w = false := by
  unfold denseRewire rewireBadChainW
  by_cases hiw : i + 1 < wlen
  · simp only [if_pos hiw]
    cases dl with
    | none =>
      have hw : w.isSome = false := by rw [← hsome]; rfl
      simp only [if_neg (show ¬ (i + 1 < wlen ∧ w.isSome = true) from
        fun hc => by rw [hw] at hc; cases hc.2)]
      simp
    | some v =>
      have hw : w.isSome = true := by rw [← hsome]; rfl
      simp only [if_pos (show i + 1 < wlen ∧ w.isSome = true from ⟨hiw, hw⟩)]
      by_cases hlen : chain.length + i + 1 < wlen
      · simp only [if_pos hlen]
        constructor
        · rintro ⟨c2, hc2⟩
          cases hc2
        · intro hbad
          exfalso
          have hne : ¬ wlen ≤ chain.length + i + 1 := by omega
          simp [hne] at hbad
      · simp only [if_neg hlen]
        have hle : wlen ≤ chain.length + i + 1 := by omega
        cases hscrut : chain.getD (chain.length + i + 1 - wlen) .seqOp with
        | denseOp s =>
          simp only [hscrut]
          constructor
          · intro _
            simp [hle, kindOf]
          · intro _
            exact ⟨_, rfl⟩
        | ball s =>
          simp only [hscrut]
          constructor
          · rintro ⟨c2, hc2⟩
            cases hc2
          · intro hbad
            simp [hle, kindOf] at hbad
        | ballProj s =>
          simp only [hscrut]
          constructor
          · rintro ⟨c2, hc2⟩
            cases hc2
          · intro hbad
            simp [hle, kindOf] at hbad
        | linear s =>
          simp only [hscrut]
          constructor
          · rintro ⟨c2, hc2⟩
            cases hc2
          · intro hbad
            simp [hle, kindOf] at hbad
        | convOp s =>
          simp only [hscrut]
          constructor
          · rintro ⟨c2, hc2⟩
            cases hc2
          · intro hbad
            simp [hle, kindOf] at hbad
        | reluOp s =>
          simp only [hscrut]
          constructor
          · rintro ⟨c2, hc2⟩
            cases hc2
          · intro hbad
            simp [hle, kindOf] at hbad
        | reluProj s =>
          simp only [hscrut]
          constructor
          · rintro ⟨c2, hc2⟩
            cases hc2
          · intro hbad
            simp [hle, kindOf] at hbad
        | reshapeOp =>
          simp only [hscrut]
          constructor
          · rintro ⟨c2, hc2⟩
            cases hc2
          · intro hbad
            simp [hle, kindOf] at hbad
        | seqOp =>
          simp only [hscrut]
          constructor
          · rintro ⟨c2, hc2⟩
            cases hc2
          · intro hbad
            simp [hle, kindOf] at hbad
        | bnOp s =>
          simp only [hscrut]
          constructor
          · rintro ⟨c2, hc2⟩
            cases hc2
          · intro hbad
            simp [hle, kindOf] at hbad
  · simp only [if_neg hiw,
      if_neg (show ¬ (i + 1 < wlen ∧ w.isSome = true) from fun hc => hiw hc.1)]
    simp

lemma denseRewire_kinds (chain c2 : List DualOp) (wlen i : ℕ)
    (dl : Option SimpleDual) (h : denseRewire chain wlen i dl = .ok c2) :
    c2.map kindOf = chain.map kindOf := by
  unfold denseRewire at h
  by_cases hiw : i + 1 < wlen
  · rw [if_pos hiw] at h
    cases dl with
    | none =>
      cases h
      rfl
    | some w =>
      dsimp only at h
      by_cases hlen : chain.length + i + 1 < wlen
      · rw [if_pos hlen] at h
        cases h
      · rw [if_neg hlen] at h
        cases hscrut : chain.getD (chain.length + i + 1 - wlen) .seqOp with
        | denseOp s =>
          simp only [hscrut] at h
          cases h
          have hpos : chain.length + i + 1 - wlen < chain.length := by
            by_contra hge
            push_neg at hge
            rw [List.getD_eq_default _ _ hge] at hscrut
            cases hscrut
          rw [List.map_set]
          have hk : kindOf (DualOp.denseOp
              ⟨s.duals, some w :: (List.replicate (wlen - i - s.dual_ts.length - 1) none
                ++ s.dual_ts)⟩) = (chain.map kindOf).getD
              (chain.length + i + 1 - wlen) .seqK := by
            rw [getD_map_kind, hscrut]
            rfl
          rw [hk]
          exact set_getD_self (chain.map kindOf) _ _ (by
            rw [List.length_map]; exact hpos)
        | ball s => simp only [hscrut] at h; cases h
        | ballProj s => simp only [hscrut] at h; cases h
        | linear s => simp only [hscrut] at h; cases h
        | convOp s => simp only [hscrut] at h; cases h
        | reluOp s => simp only [hscrut] at h; cases h
        | reluProj s => simp only [hscrut] at h; cases h
        | reshapeOp => simp only [hscrut] at h; cases h
        | seqOp => simp only [hscrut] at h; cases h
        | bnOp s => simp only [hscrut] at h; cases h
  · rw [if_neg hiw] at h
    cases h
    rfl

lemma rewireBadChainW_congr (chain chainB : List DualOp) (wlen i : ℕ)
    (w : Option DenseW) (hk : chainB.map kindOf = chain.map kindOf) :
    rewireBadChainW chainB wlen i w = rewireBadChainW chain wlen i w := by
  have hlen : chainB.length = chain.length := by
    have h := congrArg List.length hk
    simpa using h
  have hkind : ∀ j, kindOf (chainB.getD j .seqOp) = kindOf (chain.getD j .seqOp) := by
    intro j
    rw [← getD_map_kind, ← getD_map_kind, hk]
  unfold rewireBadChainW
  rw [hlen, hkind]

lemma mkDualDenseGo_kinds (wlen : ℕ) :
    ∀ (ws : List (Option DenseW)) (i : ℕ) (chain : List DualOp)
      (duals duals2 : List (Option SimpleDual)) (chain2 : List DualOp),
      mkDualDenseGo wlen chain duals i ws = .ok (duals2, chain2) →
      chain2.map kindOf = chain.map kindOf := by
  intro ws
  induction ws with
  | nil =>
    intro i chain duals duals2 chain2 h
    simp only [mkDualDenseGo] at h
    cases h
    rfl
  | cons w rest ih =>
    intro i chain duals duals2 chain2 h
    simp only [mkDualDenseGo] at h
    cases hsd : mkSimpleDual w with
    | error e => simp only [hsd] at h; cases h
    | ok dl =>
      simp only [hsd] at h
      cases hrw : denseRewire chain wlen i dl with
      | error e => simp only [hrw] at h; cases h
      | ok chainB =>
        simp only [hrw] at h
        rw [ih (i + 1) chainB (duals ++ [dl]) duals2 chain2 h]
        exact denseRewire_kinds chain chainB wlen i dl hrw

lemma mkDualDenseGo_duals_length (wlen : ℕ) :
    ∀ (ws : List (Option DenseW)) (i : ℕ) (chain : List DualOp)
      (duals duals2 : List (Option SimpleDual)) (chain2 : List DualOp),
      mkDualDenseGo wlen chain duals i ws = .ok (duals2, chain2) →
      duals2.length = duals.length + ws.length := by
  intro ws
  induction ws with
  | nil =>
    intro i chain duals duals2 chain2 h
    simp only [mkDualDenseGo] at h
    cases h
    simp
  | cons w rest ih =>
    intro i chain duals duals2 chain2 h
    simp only [mkDualDenseGo] at h
    cases hsd : mkSimpleDual w with
    | error e => simp only [hsd] at h; cases h
    | ok dl =>
      simp only [hsd] at h
      cases hrw : denseRewire chain wlen i dl with
      | error e => simp only [hrw] at h; cases h
      | ok chainB =>
        simp only [hrw] at h
        have := ih (i + 1) chainB (duals ++ [dl]) duals2 chain2 h
        simp at this
        simp [this]
        omega

lemma mkDualDenseGo_ok_iff (wlen : ℕ) :
    ∀ (ws : List (Option DenseW)) (i : ℕ) (chain : List DualOp)
      (duals : List (Option SimpleDual)),
      (∃ res, mkDualDenseGo wlen chain duals i ws = .ok res) ↔
      (∀ q, q < ws.length → denseWBad (ws.getD q none) = false ∧
        rewireBadChainW chain wlen (i + q) (ws.getD q none) = false) := by
  intro ws
  induction ws with
  | nil =>
    intro i chain duals
    constructor
    · intro _ q hq
      exact absurd hq (by simp)
    · intro _
      exact ⟨(duals, chain), by simp [mkDualDenseGo]⟩
  | cons w rest ih =>
    intro i chain duals
    simp only [mkDualDenseGo]
    cases hsd : mkSimpleDual w with
    | error e =>
      simp only [hsd]
      constructor
      · rintro ⟨res, hres⟩
        cases hres
      · intro hall
        exfalso
        have h0 := (hall 0 (by simp)).1
        simp only [List.getD_cons_zero] at h0
        obtain ⟨dl, hdl⟩ := (mkSimpleDual_ok_iff w).mpr h0
        rw [hsd] at hdl
        cases hdl
    | ok dl =>
      simp only [hsd]
      have hsome := mkSimpleDual_isSome w dl hsd
      cases hrw : denseRewire chain wlen i dl with
      | error e =>
        simp only [hrw]
        constructor
        · rintro ⟨res, hres⟩
          cases hres
        · intro hall
          exfalso
          have h0 := (hall 0 (by simp)).2
          simp only [List.getD_cons_zero, Nat.add_zero] at h0
          obtain ⟨c2, hc2⟩ :=
            (denseRewire_ok_iff chain wlen i w dl hsome).mpr h0
          rw [hrw] at hc2
          cases hc2
      | ok chainB =>
        simp only [hrw]
        have hkB : chainB.map kindOf = chain.map kindOf :=
          denseRewire_kinds chain chainB wlen i dl hrw
        rw [ih (i + 1) chainB (duals ++ [dl])]
        constructor
        · intro hrest q hq
          cases q with
          | zero =>
            refine ⟨by simpa using (mkSimpleDual_ok_iff w).mp ⟨dl, hsd⟩, ?_⟩
            simp only [List.getD_cons_zero, Nat.add_zero]
            exact (denseRewire_ok_iff chain wlen i w dl hsome).mp ⟨chainB, hrw⟩
          | succ q2 =>
            have hq2 : q2 < rest.length := by
              simp only [List.length_cons] at hq
              omega
            have hstep := hrest q2 hq2
            have harith : i + (q2 + 1) = i + 1 + q2 := by omega
            rw [List.getD_cons_succ, harith,
              ← rewireBadChainW_congr chain chainB wlen (i + 1 + q2)
                (rest.getD q2 none) hkB]
            exact hstep
        · intro hall q2 hq2
          have hq : q2 + 1 < (w :: rest).length := by
            simp only [List.length_cons]
            omega
          have hstep := hall (q2 + 1) hq
          rw [List.getD_cons_succ] at hstep
          have harith : i + (q2 + 1) = i + 1 + q2 := by omega
          rw [harith] at hstep
          rw [rewireBadChainW_congr chain chainB wlen (i + 1 + q2)
            (rest.getD q2 none) hkB]
          exact hstep

lemma mkDualDense_ok_iff (ws : List (Option DenseW)) (chain : List DualOp) :
    (∃ res, mkDualDense ws chain = .ok res) ↔
      (ws.isEmpty = false ∧ ∀ q, q < ws.length →
        denseWBad (ws.getD q none) = false ∧
        rewireBadChainW chain ws.length q (ws.getD q none) = false) := by
  unfold mkDualDense
  cases hgo : mkDualDenseGo ws.length chain [] 0 ws with
  | error e =>
    constructor
    · rintro ⟨res, hres⟩
      cases hres
    · intro hall
      exfalso
      obtain ⟨res, hres⟩ := (mkDualDenseGo_ok_iff ws.length ws 0 chain []).mpr
        (by intro q hq; simpa using hall.2 q hq)
      rw [hgo] at hres
      cases hres
  | ok pr =>
    obtain ⟨duals2, chainB⟩ := pr
    have hdlen : duals2.length = ws.length := by
      have h := mkDualDenseGo_duals_length ws.length ws 0 chain [] duals2 chainB hgo
      simpa using h
    cases hlast : duals2.getLast? with
    | none =>
      have hnil : duals2 = [] := by
        cases duals2 with
        | nil => rfl
        | cons a t => simp at hlast
      constructor
      · rintro ⟨res, hres⟩
        dsimp only at hres
        rw [hlast] at hres
        cases hres
      · rintro ⟨hne, _⟩
        exfalso
        have hwnil : ws = [] := by
          rw [hnil] at hdlen
          exact List.length_eq_zero.mp hdlen.symm
        rw [hwnil] at hne
        cases hne
    | some dlast =>
      constructor
      · intro _
        refine ⟨?_, ?_⟩
        · have hne : duals2 ≠ [] := by
            intro hd
            rw [hd] at hlast
            cases hlast
          have hwne : ws.length ≠ 0 := by
            intro hw
            rw [hw] at hdlen
            exact hne (List.length_eq_zero.mp hdlen)
          cases ws with
          | nil => exact absurd rfl hwne
          | cons a t => rfl
        · intro q hq
          have := (mkDualDenseGo_ok_iff ws.length ws 0 chain []).mp
            ⟨(duals2, chainB), hgo⟩ q hq
          simpa using this
      · intro _
        refine ⟨(⟨duals2, [dlast]⟩, chainB), ?_⟩
        dsimp only
        rw [hlast]

lemma mkDualDense_kinds (ws : List (Option DenseW)) (chain chain2 : List DualOp)
    (s : DualDense) (h : mkDualDense ws chain = .ok (s, chain2)) :
    chain2.map kindOf = chain.map kindOf := by
  unfold mkDualDense at h
  cases hgo : mkDualDenseGo ws.length chain [] 0 ws with
  | error e => simp only [hgo] at h; cases h
  | ok pr =>
    obtain ⟨duals2, chainB⟩ := pr
    simp only [hgo] at h
    cases hlast : duals2.getLast? with
    | none => simp only [hlast] at h; cases h
    | some dlast =>
      simp only [hlast] at h
      cases h
      exact mkDualDenseGo_kinds ws.length ws 0 chain [] duals2 chain2 hgo

lemma rewireBadChainW_eq_rewireBad (net : List Layer) (pPos : ℕ)
    (chain : List DualOp) (ws : List (Option DenseW)) (q : ℕ)
    (hkinds : chain.map kindOf = .ballK :: (net.take pPos).map layerKind)
    (hlen : chain.length = pPos + 1) :
    rewireBadChainW chain ws.length q (ws.getD q none) = rewireBad net pPos ws q := by
  unfold rewireBadChainW rewireBad
  by_cases hcond : q + 1 < ws.length ∧ (ws.getD q none).isSome
  · rw [if_pos hcond, if_pos hcond, hlen]
    have hq1 : q + 1 < ws.length := hcond.1
    congr 1
    rw [show (net.getD (pPos + 1 + q - ws.length) (.unknownL "")).isDenseL =
      decide ((net.getD (pPos + 1 + q - ws.length) (.unknownL "")).isDenseL = true)
      from (by simp)]
    rw [← Bool.decide_and, ← Bool.decide_and]
    apply decide_eq_decide.mpr
    constructor
    · rintro ⟨hA, hB⟩
      rcases Nat.lt_or_ge (pPos + 1 + q + 1 - ws.length) 1 with hpos0 | hpos1
      · exfalso
        have hp0 : pPos + 1 + q + 1 - ws.length = 0 := by omega
        rw [hp0, ← getD_map_kind, hkinds, List.getD_cons_zero] at hB
        cases hB
      · have hA2 : ws.length ≤ pPos + 1 + q := by omega
        refine ⟨hA2, ?_⟩
        have hpos : pPos + 1 + q + 1 - ws.length = (pPos + 1 + q - ws.length) + 1 := by
          omega
        rw [hpos, ← getD_map_kind, hkinds, List.getD_cons_succ,
          getD_map_layerKind, getD_take_lt _ _ _ _ (by omega)] at hB
        exact (layerKind_dense_iff _).mp hB
    · rintro ⟨hA2, hB2⟩
      refine ⟨by omega, ?_⟩
      have hpos : pPos + 1 + q + 1 - ws.length = (pPos + 1 + q - ws.length) + 1 := by
        omega
      rw [hpos, ← getD_map_kind, hkinds, List.getD_cons_succ,
        getD_map_layerKind, getD_take_lt _ _ _ _ (by omega)]
      exact (layerKind_dense_iff _).mpr hB2
  · rw [if_neg hcond, if_neg hcond]

lemma mkDualLayer_kinds (p : BuildParams) (i : ℕ) (chain : List DualOp)
    (l : Layer) (d : DualOp) (chain2 : List DualOp)
    (h : mkDualLayer p i chain l = .ok (d, chain2)) :
    kindOf d = layerKind l ∧ chain2.map kindOf = chain.map kindOf := by
  cases l with
  | linearL inF outF W b =>
    simp only [mkDualLayer, mkDualLinear] at h
    cases h
    exact ⟨rfl, rfl⟩
  | conv2dL inF outF W b =>
    simp only [mkDualLayer, mkDualConv2d] at h
    cases h
    exact ⟨rfl, rfl⟩
  | reluL n =>
    simp only [mkDualLayer] at h
    cases hpl : p.l1_proj with
    | none =>
      simp only [hpl] at h
      cases h
      exact ⟨rfl, rfl⟩
    | some kk =>
      simp only [hpl] at h
      split at h
      · cases h
        exact ⟨rfl, rfl⟩
      · cases h
        exact ⟨rfl, rfl⟩
  | flattenL inF outF =>
    simp only [mkDualLayer] at h
    cases h
    exact ⟨rfl, rfl⟩
  | denseL ws =>
    simp only [mkDualLayer] at h
    cases hmd : mkDualDense ws chain with
    | error e => simp only [hmd] at h; cases h
    | ok pr =>
      obtain ⟨sd, chainB⟩ := pr
      simp only [hmd] at h
      cases h
      exact ⟨rfl, mkDualDense_kinds ws chain chain2 sd hmd⟩
  | batchNormL n w b mu denom =>
    simp only [mkDualLayer] at h
    cases h
    exact ⟨rfl, rfl⟩
  | unknownL name =>
    simp only [mkDualLayer] at h
    cases h

lemma mkDualLayer_ok_iff_net (net : List Layer) (pPos : ℕ) (p : BuildParams)
    (i : ℕ) (chain : List DualOp) (l : Layer)
    (hkinds : chain.map kindOf = .ballK :: (net.take pPos).map layerKind)
    (hlen : chain.length = pPos + 1) :
    (∃ res, mkDualLayer p i chain l = .ok res) ↔
      layerBad net pPos l = false := by
  cases l with
  | linearL inF outF W b =>
    exact iff_of_true ⟨_, rfl⟩ rfl
  | conv2dL inF outF W b =>
    exact iff_of_true ⟨_, rfl⟩ rfl
  | reluL n =>
    refine iff_of_true ?_ rfl
    cases hp : p.l1_proj with
    | none => exact ⟨_, by simp only [mkDualLayer, hp]; rfl⟩
    | some kk =>
      by_cases hc : p.l1_type = "median" ∧
          kk < (indsOf n (reluI (chainBounds chain).1 (chainBounds chain).2)).length
      · exact ⟨_, by simp only [mkDualLayer, hp, if_pos hc]; rfl⟩
      · exact ⟨_, by simp only [mkDualLayer, hp, if_neg hc]; rfl⟩
  | flattenL inF outF =>
    exact iff_of_true ⟨_, rfl⟩ rfl
  | denseL ws =>
    have hlb : layerBad net pPos (.denseL ws) =
        (ws.isEmpty || (List.range ws.length).any
          (fun q => denseWBad (ws.getD q none) || rewireBad net pPos ws q)) := rfl
    rw [hlb]
    constructor
    · rintro ⟨res, hres⟩
      have hmd2 : ∃ r2, mkDualDense ws chain = .ok r2 := by
        simp only [mkDualLayer] at hres
        cases hmd : mkDualDense ws chain with
        | error e => simp only [hmd] at hres; cases hres
        | ok pr => exact ⟨pr, rfl⟩
      obtain ⟨hne, hq⟩ := (mkDualDense_ok_iff ws chain).mp hmd2
      rw [Bool.or_eq_false_iff]
      refine ⟨hne, ?_⟩
      rw [List.any_eq_false]
      intro x hx
      have hxlt : x < ws.length := List.mem_range.mp hx
      have hstep := hq x hxlt
      rw [rewireBadChainW_eq_rewireBad net pPos chain ws x hkinds hlen] at hstep
      rw [hstep.1, hstep.2]
      simp
    · intro hbad
      rw [Bool.or_eq_false_iff, List.any_eq_false] at hbad
      obtain ⟨hne, hany⟩ := hbad
      have hok : ∃ r2, mkDualDense ws chain = .ok r2 := by
        apply (mkDualDense_ok_iff ws chain).mpr
        refine ⟨hne, ?_⟩
        intro q hq
        have hstep := hany q (List.mem_range.mpr hq)
        simp only [Bool.or_eq_true, not_or] at hstep
        refine ⟨by simpa using hstep.1, ?_⟩
        rw [rewireBadChainW_eq_rewireBad net pPos chain ws q hkinds hlen]
        simpa using hstep.2
      obtain ⟨r2, hr2⟩ := hok
      exact ⟨(.denseOp r2.1, r2.2), by simp only [mkDualLayer, hr2]⟩
  | batchNormL n w b mu denom =>
    exact iff_of_true ⟨_, rfl⟩ rfl
  | unknownL name =>
    refine iff_of_false ?_ (fun hf => by cases hf)
    rintro ⟨res, hres⟩
    simp only [mkDualLayer] at hres
    cases hres

lemma buildGo_ok_iff_aux (net : List Layer) (p : BuildParams) :
    ∀ (rest : List Layer) (k i : ℕ) (chain : List DualOp),
      net.drop k = rest →
      chain.map kindOf = .ballK :: (net.take k).map layerKind →
      chain.length = k + 1 →
      ((∃ res, buildGo p i rest chain = .ok res) ↔
        ∀ q, q < rest.length →
          layerBad net (k + q) (net.getD (k + q) (.unknownL "")) = false) := by
  intro rest
  induction rest with
  | nil =>
    intro k i chain hdrop hkinds hlen
    refine iff_of_true ⟨(chain, none), rfl⟩ ?_
    intro q hq
    exact absurd hq (by simp)
  | cons l rest2 ih =>
    intro k i chain hdrop hkinds hlen
    have hkn : k < net.length := by
      by_contra hge
      push_neg at hge
      rw [List.drop_eq_nil_of_le hge] at hdrop
      cases hdrop
    have hlk : net.getD k (.unknownL "") = l := by
      have h1 : (net.drop k).getD 0 (.unknownL "") = l := by
        rw [hdrop]
        rfl
      rw [List.getD_eq_getElem?_getD, List.getElem?_drop] at h1
      rw [List.getD_eq_getElem?_getD]
      simpa using h1
    have hdrop2 : net.drop (k + 1) = rest2 := by
      have h2 := congrArg (List.drop 1) hdrop
      rw [List.drop_drop] at h2
      simpa using h2
    have hlayer := mkDualLayer_ok_iff_net net k p i chain l hkinds hlen
    cases rest2 with
    | nil =>
      simp only [buildGo]
      constructor
      · rintro ⟨res, hres⟩
        intro q hq
        have hq0 : q = 0 := by
          simp only [List.length_cons, List.length_nil] at hq
          omega
        subst hq0
        rw [Nat.add_zero, hlk]
        apply hlayer.mp
        cases hml : mkDualLayer p i chain l with
        | error e => simp only [hml] at hres; cases hres
        | ok pr => exact ⟨pr, rfl⟩
      · intro hall
        have h0 := hall 0 (by simp)
        rw [Nat.add_zero, hlk] at h0
        obtain ⟨⟨d, chain2⟩, hml⟩ := hlayer.mpr h0
        exact ⟨(chain2, some d), by simp only [hml]⟩
    | cons l3 rest3 =>
      simp only [buildGo]
      cases hml : mkDualLayer p i chain l with
      | error e =>
        simp only [hml]
        constructor
        · rintro ⟨res, hres⟩
          cases hres
        · intro hall
          exfalso
          have h0 := hall 0 (by simp)
          rw [Nat.add_zero, hlk] at h0
          obtain ⟨res2, hres2⟩ := hlayer.mpr h0
          rw [hml] at hres2
          cases hres2
      | ok pr =>
        obtain ⟨d, chain2⟩ := pr
        simp only [hml]
        obtain ⟨hkd, hk2⟩ := mkDualLayer_kinds p i chain l d chain2 hml
        have hlen2 : chain2.length = chain.length := by
          have h3 := congrArg List.length hk2
          simpa using h3
        have htake : net.take (k + 1) = net.take k ++ [l] := by
          rw [List.take_succ, List.getElem?_eq_getElem hkn]
          have hgl : net[k] = l := by
            rw [List.getD_eq_getElem?_getD, List.getElem?_eq_getElem hkn] at hlk
            simpa using hlk
          rw [hgl]
          rfl
        have hkinds3 : ((chain2.map (fun t => t.apply d)) ++ [d]).map kindOf =
            .ballK :: (net.take (k + 1)).map layerKind := by
          rw [List.map_append, List.map_map]
          have hmm : chain2.map (kindOf ∘ fun t => t.apply d) =
              chain2.map kindOf := by
            apply List.map_congr_left
            intro a _
            exact kindOf_apply a d
          rw [hmm, hk2, hkinds, htake, List.map_append]
          simp [hkd]
        have hlen3 : ((chain2.map (fun t => t.apply d)) ++ [d]).length =
            (k + 1) + 1 := by
          simp [hlen2, hlen]
        rw [ih (k + 1) (i + 1) _ hdrop2 hkinds3 hlen3]
        constructor
        · intro hrest q hq
          cases q with
          | zero =>
            rw [Nat.add_zero, hlk]
            exact hlayer.mp ⟨(d, chain2), hml⟩
          | succ q2 =>
            have hq2 : q2 < (l3 :: rest3).length := by
              simp only [List.length_cons] at hq ⊢
              omega
            have hstep := hrest q2 hq2
            rw [show k + (q2 + 1) = (k + 1) + q2 from by omega]
            exact hstep
        · intro hall q2 hq2
          have hq : q2 + 1 < (l :: l3 :: rest3).length := by
            simp only [List.length_cons] at hq2 ⊢
            omega
          have hstep := hall (q2 + 1) hq
          rw [show k + (q2 + 1) = (k + 1) + q2 from by omega] at hstep
          exact hstep

lemma buildGo_shape (p : BuildParams) :
    ∀ (rest : List Layer) (i : ℕ) (chain ch : List DualOp)
      (lst : Option DualOp),
      buildGo p i rest chain = .ok (ch, lst) →
      (rest = [] ∧ ch = chain ∧ lst = none) ∨
      (rest ≠ [] ∧ ch.length = chain.length + rest.length - 1 ∧
        lst.isSome = true) := by
  intro rest
  induction rest with
  | nil =>
    intro i chain ch lst h
    simp only [buildGo] at h
    cases h
    exact Or.inl ⟨rfl, rfl, rfl⟩
  | cons l rest2 ih =>
    intro i chain ch lst h
    cases rest2 with
    | nil =>
      simp only [buildGo] at h
      cases hml : mkDualLayer p i chain l with
      | error e => simp only [hml] at h; cases h
      | ok pr =>
        obtain ⟨d, chain2⟩ := pr
        simp only [hml] at h
        cases h
        obtain ⟨_, hk2⟩ := mkDualLayer_kinds p i chain l d ch hml
        have hlen2 : ch.length = chain.length := by
          have h3 := congrArg List.length hk2
          simpa using h3
        refine Or.inr ⟨by simp, ?_, rfl⟩
        simp [hlen2]
    | cons l3 rest3 =>
      simp only [buildGo] at h
      cases hml : mkDualLayer p i chain l with
      | error e => simp only [hml] at h; cases h
      | ok pr =>
        obtain ⟨d, chain2⟩ := pr
        simp only [hml] at h
        obtain ⟨_, hk2⟩ := mkDualLayer_kinds p i chain l d chain2 hml
        have hlen2 : chain2.length = chain.length := by
          have h3 := congrArg List.length hk2
          simpa using h3
        rcases ih (i + 1) ((chain2.map (fun t => t.apply d)) ++ [d]) ch lst h with
          ⟨hnil, _, _⟩ | ⟨_, hlen3, hsome⟩
        · cases hnil
        · refine Or.inr ⟨by simp, ?_, hsome⟩
          have hL : ((chain2.map (fun t => t.apply d)) ++ [d]).length =
              chain.length + 1 := by
            simp [hlen2]
          rw [hlen3, hL]
          simp only [List.length_cons]
          omega

/-- Claim C9 counterexample: a network whose only layer is a Dense
(residual) block holding a ReLU sub-module fails construction with the
dense-structure parse error, even though every layer and sub-module is of a
recognized kind (dense at the top, ReLU inside), so construction failure is
not confined to unrecognized layer kinds. -/
theorem unrecognized_kind_counterexample :
    DualNetBounds [Layer.denseL [some (DenseW.reluW 1)]] 1 zeroV 0
        ⟨none, "", none, none, fun _ => zeroM⟩ =
      .error ("do not know how to parse dense structure") ∧
    recognizedKind (Layer.denseL [some (DenseW.reluW 1)]) = true ∧
    recognizedKindW (DenseW.reluW 1) = true :=
  ⟨rfl, rfl, rfl⟩

/-- Claim C9 as amended: bound construction fails exactly when the network
contains a top-level layer of an unrecognized kind or a malformed Dense
block (empty, holding a sub-module DualDense cannot parse, or with a
back-reference landing outside the chain or on a non-dense entry); the
linear and convolutional dual constructors reject layers of the wrong type;
and on success the chain is complete: one dual per layer plus the separate
last layer, never a partial chain. -/
theorem construction_failure_characterization (net : List Layer) (n0 : ℕ)
    (X : V) (eps : ℚ) (p : BuildParams) :
    ((∃ res, DualNetBounds net n0 X eps p = .ok res) ↔
      buildFails net = false) ∧
    (∀ l : Layer, (∃ s, mkDualLinear l = .ok s) ↔ l.isLinearL = true) ∧
    (∀ l : Layer, (∃ s, mkDualConv2d l = .ok s) ↔ l.isConv2dL = true) ∧
    (∀ (ch : List DualOp) (lst : Option DualOp),
      DualNetBounds net n0 X eps p = .ok (ch, lst) →
      (net = [] → ch.length = 1 ∧ lst = none) ∧
      (net ≠ [] → ch.length = net.length ∧ lst.isSome = true)) := by
  refine ⟨?_, ?_, ?_, ?_⟩
  · have haux := buildGo_ok_iff_aux net p net 0 0
      [.ball ⟨n0, eps, [X], [eyeM n0]⟩] rfl (by simp [kindOf]) rfl
    unfold DualNetBounds
    rw [haux]
    unfold buildFails
    rw [List.any_eq_false]
    constructor
    · intro hall x hx
      have h := hall x (List.mem_range.mp hx)
      rw [Nat.zero_add] at h
      rw [Bool.not_eq_true]
      exact h
    · intro hall q hq
      have h := hall q (List.mem_range.mpr hq)
      rw [Nat.zero_add]
      simpa using h
  · intro l
    cases l <;> simp [mkDualLinear, Layer.isLinearL]
  · intro l
    cases l <;> simp [mkDualConv2d, Layer.isConv2dL]
  · intro ch lst h
    have hshape := buildGo_shape p net 0 [.ball ⟨n0, eps, [X], [eyeM n0]⟩]
      ch lst h
    constructor
    · intro hnil
      rcases hshape with ⟨_, hch, hlst⟩ | ⟨hne, _, _⟩
      · rw [hch, hlst]
        exact ⟨rfl, rfl⟩
      · exact absurd hnil hne
    · intro hne
      rcases hshape with ⟨hnil, _, _⟩ | ⟨_, hlen, hsome⟩
      · exact absurd hnil hne
      · refine ⟨?_, hsome⟩
        rw [hlen]
        have : net.length ≠ 0 := fun h0 => hne (List.length_eq_zero.mp h0)
        simp only [List.length_singleton]
        omega

/-- Witness for construction_failure_characterization: a one-layer linear
network has no failing layer and builds successfully. -/
theorem construction_failure_characterization_witness :
    buildFails [Layer.linearL 1 1 zeroM none] = false ∧
    (∃ res, DualNetBounds [Layer.linearL 1 1 zeroM none] 1 zeroV 0
      ⟨none, "", none, none, fun _ => zeroM⟩ = .ok res) :=
  ⟨rfl,
   (construction_failure_characterization [Layer.linearL 1 1 zeroM none]
     1 zeroV 0 ⟨none, "", none, none, fun _ => zeroM⟩).1.mpr rfl⟩

/- ------------------------------------------------------------------
Claim C1: on purely affine networks the bound evaluation g equals the
closed-form transposed sweep.
------------------------------------------------------------------ -/

lemma dropLast_getLastD {α : Type} (d : α) :
    ∀ (l : List α), l ≠ [] → l.dropLast ++ [l.getLastD d] = l := by
  intro l
  induction l with
  | nil => intro h; exact absurd rfl h
  | cons a t ih =>
    intro _
    cases t with
    | nil => rfl
    | cons b2 t2 =>
      have h2 := ih (by simp)
      rw [show (a :: b2 :: t2).dropLast = a :: (b2 :: t2).dropLast from rfl]
      rw [show (a :: b2 :: t2).getLastD d = (b2 :: t2).getLastD d by
        simp [List.getLastD, List.getLast?_cons_cons]]
      rw [List.cons_append, h2]

lemma nuChain_length (ops : List DualOp) : ∀ nu : V,
    (nuChain ops nu).length = ops.length := by
  induction ops with
  | nil => intro nu; rfl
  | cons op rest ih =>
    intro nu
    simp only [nuChain, List.length_cons, ih]

lemma foldl_affineT : ∀ (es : List DualOp) (acc : List V),
    (∀ op ∈ es, ReadsLast op) →
    es.foldl (fun a op => a ++ [op.affineT a]) acc
      = acc ++ nuChain es (lastV acc) := by
  intro es
  induction es with
  | nil =>
    intro acc _
    simp [nuChain]
  | cons op rest ih =>
    intro acc hall
    have hop : ReadsLast op := hall op (List.mem_cons_self op rest)
    rw [List.foldl_cons]
    rw [show acc ++ [op.affineT acc] = acc ++ [stepT op (lastV acc)] from by
      rw [hop.1 acc]]
    rw [ih (acc ++ [stepT op (lastV acc)])
      (fun o ho => hall o (List.mem_cons_of_mem _ ho))]
    rw [show lastV (acc ++ [stepT op (lastV acc)]) = stepT op (lastV acc) from by
      simp [lastV, List.getLastD_concat]]
    rw [List.append_assoc]
    rfl

lemma zipsum_prev_free : ∀ (l : List DualOp) (ns : List V) (pv : V),
    (∀ op ∈ l, ∀ nu a b2 : V, op.fvalDir nu a = op.fvalDir nu b2) →
    ((l.zip ((pv :: ns).zip ns)).map (fun t => t.1.fvalDir t.2.2 t.2.1)).sum
      = ((l.zip ns).map (fun t => t.1.fvalDir t.2 zeroV)).sum := by
  intro l
  induction l with
  | nil => intro ns pv _; rfl
  | cons op rest ih =>
    intro ns pv hall
    cases ns with
    | nil => rfl
    | cons nu ns2 =>
      simp only [List.zip_cons_cons, List.map_cons, List.sum_cons]
      rw [ih ns2 nu (fun o ho => hall o (List.mem_cons_of_mem _ ho))]
      rw [hall op (List.mem_cons_self op rest) nu pv zeroV]

lemma zip_reverse_eq {α β : Type} :
    ∀ (l1 : List α) (l2 : List β), l1.length = l2.length →
      (l1.zip l2).reverse = l1.reverse.zip l2.reverse := by
  intro l1
  induction l1 with
  | nil => intro l2 h; rfl
  | cons a t ih =>
    intro l2 h
    cases l2 with
    | nil => simp at h
    | cons b2 t2 =>
      have hlen : t.length = t2.length := by simpa using h
      simp only [List.zip_cons_cons, List.reverse_cons]
      rw [ih t2 hlen]
      rw [List.zip_append (by simp [hlen])]
      rfl

lemma zipsum_nuChain (ballOp : DualOp) :
    ∀ (ops : List DualOp) (nu : V),
      (((ops ++ [ballOp]).zip (nu :: nuChain ops nu)).map
        (fun t => t.1.fvalDir t.2 zeroV)).sum
        = gLinForm ballOp ops nu := by
  intro ops
  induction ops with
  | nil =>
    intro nu
    simp [nuChain, gLinForm]
  | cons op rest ih =>
    intro nu
    rw [show (op :: rest) ++ [ballOp] = op :: (rest ++ [ballOp]) from rfl]
    rw [show nuChain (op :: rest) nu
        = stepT op nu :: nuChain rest (stepT op nu) from rfl]
    simp only [List.zip_cons_cons, List.map_cons, List.sum_cons]
    rw [ih (stepT op nu)]
    rfl

lemma g_lin_eq (b2 lst : DualOp) (es2 : List DualOp) (c : V)
    (hes : ∀ op ∈ es2, ReadsLast op) (hlst : ReadsLast lst)
    (hb : ∀ nu a b2v : V, b2.fvalDir nu a = b2.fvalDir nu b2v) :
    g (b2 :: es2) lst c = gLinForm b2 (lst :: es2.reverse) (negV c) := by
  have hgnus : gNus (b2 :: es2) lst c =
      [negV c, stepT lst (negV c)] ++ nuChain es2.reverse (stepT lst (negV c)) := by
    show es2.reverse.foldl (fun acc op => acc ++ [op.affineT acc])
        [negV c, lst.affineT [negV c]] = _
    rw [foldl_affineT es2.reverse [negV c, lst.affineT [negV c]]
      (fun op hop => hes op (List.mem_reverse.mp hop))]
    rfl
  have hpf : ∀ op ∈ (b2 :: es2) ++ [lst], ∀ nu a b2v : V,
      op.fvalDir nu a = op.fvalDir nu b2v := by
    intro op hop
    rcases List.mem_append.mp hop with hop | hop
    · rcases List.mem_cons.mp hop with rfl | hop
      · exact hb
      · exact (hes op hop).2
    · rcases List.mem_singleton.mp hop with rfl
      exact hlst.2
  have hlen : ((b2 :: es2) ++ [lst]).length =
      (([negV c, stepT lst (negV c)] ++
        nuChain es2.reverse (stepT lst (negV c))).reverse).length := by
    simp [nuChain_length]
  show ((((b2 :: es2) ++ [lst]).zip
      ((zeroV :: (gNus (b2 :: es2) lst c).reverse).zip
        ((gNus (b2 :: es2) lst c).reverse))).map
      (fun t => t.1.fvalDir t.2.2 t.2.1)).sum = _
  rw [hgnus]
  rw [zipsum_prev_free ((b2 :: es2) ++ [lst])
    (([negV c, stepT lst (negV c)] ++
      nuChain es2.reverse (stepT lst (negV c))).reverse) zeroV hpf]
  rw [← List.sum_reverse, ← List.map_reverse, zip_reverse_eq _ _ hlen]
  rw [List.reverse_reverse]
  rw [show ((b2 :: es2) ++ [lst]).reverse = (lst :: es2.reverse) ++ [b2] from by
    simp]
  rw [show ([negV c, stepT lst (negV c)] ++
      nuChain es2.reverse (stepT lst (negV c)))
      = negV c :: nuChain (lst :: es2.reverse) (negV c) from rfl]
  exact zipsum_nuChain b2 (lst :: es2.reverse) (negV c)

lemma linMatch_readsLast (l : Layer) (op : DualOp) (h : LinMatch l op) :
    ReadsLast op := by
  rcases h with ⟨a, b2, _, rfl⟩ | ⟨inF, outF, W, bo, bb, hk, _⟩
  · exact ⟨fun xs => rfl, fun nu a b2v => rfl⟩
  · rcases hk with ⟨_, rfl⟩ | ⟨_, rfl⟩
    · exact ⟨fun xs => rfl, fun nu a b2v => rfl⟩
    · exact ⟨fun xs => rfl, fun nu a b2v => rfl⟩

lemma ballMatch_prev_free (n0 : ℕ) (X : V) (eps : ℚ) (op : DualOp)
    (h : BallMatch n0 X eps op) :
    ∀ nu a b2v : V, op.fvalDir nu a = op.fvalDir nu b2v := by
  obtain ⟨s, rfl, _⟩ := h
  intro nu a b2v
  rfl

lemma ballMatch_apply (n0 : ℕ) (X : V) (eps : ℚ) (op d : DualOp)
    (h : BallMatch n0 X eps op) : BallMatch n0 X eps (op.apply d) := by
  obtain ⟨s, rfl, hn, heps, hx, hne⟩ := h
  refine ⟨⟨s.n, s.epsilon, s.nu_x ++ [d.affineV s.nu_x],
    s.nu_1 ++ [d.affineM s.nu_1]⟩, rfl, hn, heps, ?_, by simp⟩
  show (s.nu_x ++ [d.affineV s.nu_x]).headD zeroV = X
  rw [headD_append_ne s.nu_x _ _ hne]
  exact hx

lemma linMatch_apply (l : Layer) (op d : DualOp) (h : LinMatch l op) :
    LinMatch l (op.apply d) := by
  rcases h with ⟨a, b2, hl, rfl⟩ | ⟨inF, outF, W, bo, bb, hk, hbias⟩
  · exact Or.inl ⟨a, b2, hl, rfl⟩
  · rcases hk with ⟨hl, rfl⟩ | ⟨hl, rfl⟩
    · refine Or.inr ⟨inF, outF, W, bo,
        bb.map (fun bl => bl ++ [d.affineV bl]), Or.inl ⟨hl, rfl⟩, ?_⟩
      rcases hbias with ⟨hbo, rfl⟩ | ⟨v, bl, hbo, rfl, hblne, hhd⟩
      · exact Or.inl ⟨hbo, rfl⟩
      · refine Or.inr ⟨v, bl ++ [d.affineV bl], hbo, rfl, by simp, ?_⟩
        show (bl ++ [d.affineV bl]).headD zeroV = v
        rw [headD_append_ne bl _ _ hblne]
        exact hhd
    · refine Or.inr ⟨inF, outF, W, bo,
        bb.map (fun bl => bl ++ [d.affineV bl]), Or.inr ⟨hl, rfl⟩, ?_⟩
      rcases hbias with ⟨hbo, rfl⟩ | ⟨v, bl, hbo, rfl, hblne, hhd⟩
      · exact Or.inl ⟨hbo, rfl⟩
      · refine Or.inr ⟨v, bl ++ [d.affineV bl], hbo, rfl, by simp, ?_⟩
        show (bl ++ [d.affineV bl]).headD zeroV = v
        rw [headD_append_ne bl _ _ hblne]
        exact hhd

lemma linChainRel_append : ∀ (ls1 : List Layer) (ops1 : List DualOp)
    (ls2 : List Layer) (ops2 : List DualOp),
    LinChainRel ls1 ops1 → LinChainRel ls2 ops2 →
    LinChainRel (ls1 ++ ls2) (ops1 ++ ops2) := by
  intro ls1
  induction ls1 with
  | nil =>
    intro ops1 ls2 ops2 h1 h2
    cases ops1 with
    | nil => exact h2
    | cons o t => exact False.elim h1
  | cons l t ih =>
    intro ops1 ls2 ops2 h1 h2
    cases ops1 with
    | nil => exact False.elim h1
    | cons o t2 =>
      have h1t : LinMatch l o ∧ LinChainRel t t2 := h1
      show LinMatch l o ∧ LinChainRel (t ++ ls2) (t2 ++ ops2)
      exact ⟨h1t.1, ih t2 ls2 ops2 h1t.2 h2⟩

lemma linChainRel_reverse : ∀ (ls : List Layer) (ops : List DualOp),
    LinChainRel ls ops → LinChainRel ls.reverse ops.reverse := by
  intro ls
  induction ls with
  | nil =>
    intro ops h
    cases ops with
    | nil => exact h
    | cons o t => exact False.elim h
  | cons l t ih =>
    intro ops h
    cases ops with
    | nil => exact False.elim h
    | cons o t2 =>
      have h2 : LinMatch l o ∧ LinChainRel t t2 := h
      rw [List.reverse_cons, List.reverse_cons]
      exact linChainRel_append t.reverse t2.reverse [l] [o] (ih t2 h2.2)
        ⟨h2.1, True.intro⟩

lemma linChainRel_map_apply (d : DualOp) : ∀ (ls : List Layer)
    (ops : List DualOp),
    LinChainRel ls ops → LinChainRel ls (ops.map (fun t => t.apply d)) := by
  intro ls
  induction ls with
  | nil =>
    intro ops h
    cases ops with
    | nil => exact h
    | cons o t => exact False.elim h
  | cons l t ih =>
    intro ops h
    cases ops with
    | nil => exact False.elim h
    | cons o t2 =>
      have h2 : LinMatch l o ∧ LinChainRel t t2 := h
      show LinMatch l (o.apply d) ∧ LinChainRel t (t2.map (fun t => t.apply d))
      exact ⟨linMatch_apply l o d h2.1, ih t2 h2.2⟩

lemma linChainRel_readsLast : ∀ (ls : List Layer) (ops : List DualOp),
    LinChainRel ls ops → ∀ op ∈ ops, ReadsLast op := by
  intro ls
  induction ls with
  | nil =>
    intro ops h op hop
    cases ops with
    | nil => cases hop
    | cons o t => exact False.elim h
  | cons l t ih =>
    intro ops h op hop
    cases ops with
    | nil => exact False.elim h
    | cons o t2 =>
      have h2 : LinMatch l o ∧ LinChainRel t t2 := h
      rcases List.mem_cons.mp hop with rfl | hop2
      · exact linMatch_readsLast l op h2.1
      · exact ih t2 h2.2 op hop2

lemma linMatch_fresh_linear (inF outF : ℕ) (W : Mx) (bo : Option V) :
    LinMatch (.linearL inF outF W bo)
      (.linear ⟨inF, outF, W, bo.map (fun v => [v])⟩) := by
  refine Or.inr ⟨inF, outF, W, bo, bo.map (fun v => [v]),
    Or.inl ⟨rfl, rfl⟩, ?_⟩
  cases bo with
  | none => exact Or.inl ⟨rfl, rfl⟩
  | some v => exact Or.inr ⟨v, [v], rfl, rfl, by simp, rfl⟩

lemma linMatch_fresh_conv (inF outF : ℕ) (W : Mx) (bo : Option V) :
    LinMatch (.conv2dL inF outF W bo)
      (.convOp ⟨inF, outF, W, bo.map (fun v => [v])⟩) := by
  refine Or.inr ⟨inF, outF, W, bo, bo.map (fun v => [v]),
    Or.inr ⟨rfl, rfl⟩, ?_⟩
  cases bo with
  | none => exact Or.inl ⟨rfl, rfl⟩
  | some v => exact Or.inr ⟨v, [v], rfl, rfl, by simp, rfl⟩

lemma linMatch_fresh_flatten (a b2 : ℕ) :
    LinMatch (.flattenL a b2) .reshapeOp := Or.inl ⟨a, b2, rfl, rfl⟩

lemma buildGo_lin (n0 : ℕ) (X : V) (eps : ℚ) (p : BuildParams) :
    ∀ (rest : List Layer) (done : List Layer) (i : ℕ) (b : DualOp)
      (es ch : List DualOp) (lst : DualOp),
      (∀ l ∈ rest, l.isAffineL = true) →
      BallMatch n0 X eps b →
      LinChainRel done es →
      buildGo p i rest (b :: es) = .ok (ch, some lst) →
      ∃ b2 es2, ch = b2 :: es2 ∧ BallMatch n0 X eps b2 ∧
        LinChainRel (done ++ rest.dropLast) es2 ∧
        LinMatch (rest.getLastD (.unknownL (""))) lst := by
  intro rest
  induction rest with
  | nil =>
    intro done i b es ch lst _ _ _ h
    simp [buildGo] at h
  | cons l rest2 ihrest =>
    intro done i b es ch lst hall hb hrel h
    have hl : l.isAffineL = true := hall l (List.mem_cons_self l rest2)
    cases rest2 with
    | nil =>
      cases l with
      | linearL inF outF W bo =>
        simp only [buildGo, mkDualLayer, mkDualLinear] at h
        simp only [Except.ok.injEq, Prod.mk.injEq, Option.some.injEq] at h
        obtain ⟨hch, hlst⟩ := h
        refine ⟨b, es, hch.symm, hb, by simpa using hrel, ?_⟩
        rw [← hlst]
        exact linMatch_fresh_linear inF outF W bo
      | conv2dL inF outF W bo =>
        simp only [buildGo, mkDualLayer, mkDualConv2d] at h
        simp only [Except.ok.injEq, Prod.mk.injEq, Option.some.injEq] at h
        obtain ⟨hch, hlst⟩ := h
        refine ⟨b, es, hch.symm, hb, by simpa using hrel, ?_⟩
        rw [← hlst]
        exact linMatch_fresh_conv inF outF W bo
      | flattenL a1 a2 =>
        simp only [buildGo, mkDualLayer] at h
        simp only [Except.ok.injEq, Prod.mk.injEq, Option.some.injEq] at h
        obtain ⟨hch, hlst⟩ := h
        refine ⟨b, es, hch.symm, hb, by simpa using hrel, ?_⟩
        rw [← hlst]
        exact linMatch_fresh_flatten a1 a2
      | reluL n => simp [Layer.isAffineL] at hl
      | denseL ws => simp [Layer.isAffineL] at hl
      | batchNormL n w bv mu dn => simp [Layer.isAffineL] at hl
      | unknownL name => simp [Layer.isAffineL] at hl
    | cons l3 rest3 =>
      cases l with
      | linearL inF outF W bo =>
        simp only [buildGo, mkDualLayer, mkDualLinear] at h
        simp only [List.map_cons, List.cons_append] at h
        obtain ⟨b2, es2, hch, hb2, hrel2, hlast2⟩ :=
          ihrest (done ++ [.linearL inF outF W bo]) (i + 1)
            (b.apply (.linear ⟨inF, outF, W, bo.map (fun v => [v])⟩))
            (es.map (fun t =>
                t.apply (.linear ⟨inF, outF, W, bo.map (fun v => [v])⟩))
              ++ [.linear ⟨inF, outF, W, bo.map (fun v => [v])⟩])
            ch lst
            (fun l2 hl2 => hall l2 (List.mem_cons_of_mem _ hl2))
            (ballMatch_apply n0 X eps b _ hb)
            (linChainRel_append done
              (es.map (fun t =>
                t.apply (.linear ⟨inF, outF, W, bo.map (fun v => [v])⟩)))
              [.linearL inF outF W bo]
              [.linear ⟨inF, outF, W, bo.map (fun v => [v])⟩]
              (linChainRel_map_apply _ done es hrel)
              ⟨linMatch_fresh_linear inF outF W bo, True.intro⟩)
            h
        refine ⟨b2, es2, hch, hb2, ?_, ?_⟩
        · rw [List.append_assoc] at hrel2
          exact hrel2
        · rw [show ((Layer.linearL inF outF W bo :: l3 :: rest3).getLastD
              (.unknownL (""))) = ((l3 :: rest3).getLastD (.unknownL (""))) by
            simp [List.getLastD, List.getLast?_cons_cons]]
          exact hlast2
      | conv2dL inF outF W bo =>
        simp only [buildGo, mkDualLayer, mkDualConv2d] at h
        simp only [List.map_cons, List.cons_append] at h
        obtain ⟨b2, es2, hch, hb2, hrel2, hlast2⟩ :=
          ihrest (done ++ [.conv2dL inF outF W bo]) (i + 1)
            (b.apply (.convOp ⟨inF, outF, W, bo.map (fun v => [v])⟩))
            (es.map (fun t =>
                t.apply (.convOp ⟨inF, outF, W, bo.map (fun v => [v])⟩))
              ++ [.convOp ⟨inF, outF, W, bo.map (fun v => [v])⟩])
            ch lst
            (fun l2 hl2 => hall l2 (List.mem_cons_of_mem _ hl2))
            (ballMatch_apply n0 X eps b _ hb)
            (linChainRel_append done
              (es.map (fun t =>
                t.apply (.convOp ⟨inF, outF, W, bo.map (fun v => [v])⟩)))
              [.conv2dL inF outF W bo]
              [.convOp ⟨inF, outF, W, bo.map (fun v => [v])⟩]
              (linChainRel_map_apply _ done es hrel)
              ⟨linMatch_fresh_conv inF outF W bo, True.intro⟩)
            h
        refine ⟨b2, es2, hch, hb2, ?_, ?_⟩
        · rw [List.append_assoc] at hrel2
          exact hrel2
        · rw [show ((Layer.conv2dL inF outF W bo :: l3 :: rest3).getLastD
              (.unknownL (""))) = ((l3 :: rest3).getLastD (.unknownL (""))) by
            simp [List.getLastD, List.getLast?_cons_cons]]
          exact hlast2
      | flattenL a1 a2 =>
        simp only [buildGo, mkDualLayer] at h
        simp only [List.map_cons, List.cons_append] at h
        obtain ⟨b2, es2, hch, hb2, hrel2, hlast2⟩ :=
          ihrest (done ++ [.flattenL a1 a2]) (i + 1)
            (b.apply .reshapeOp)
            (es.map (fun t => t.apply .reshapeOp) ++ [.reshapeOp])
            ch lst
            (fun l2 hl2 => hall l2 (List.mem_cons_of_mem _ hl2))
            (ballMatch_apply n0 X eps b _ hb)
            (linChainRel_append done
              (es.map (fun t => t.apply .reshapeOp))
              [.flattenL a1 a2] [.reshapeOp]
              (linChainRel_map_apply _ done es hrel)
              ⟨linMatch_fresh_flatten a1 a2, True.intro⟩)
            h
        refine ⟨b2, es2, hch, hb2, ?_, ?_⟩
        · rw [List.append_assoc] at hrel2
          exact hrel2
        · rw [show ((Layer.flattenL a1 a2 :: l3 :: rest3).getLastD
              (.unknownL (""))) = ((l3 :: rest3).getLastD (.unknownL (""))) by
            simp [List.getLastD, List.getLast?_cons_cons]]
          exact hlast2
      | reluL n => simp [Layer.isAffineL] at hl
      | denseL ws => simp [Layer.isAffineL] at hl
      | batchNormL n w bv mu dn => simp [Layer.isAffineL] at hl
      | unknownL name => simp [Layer.isAffineL] at hl

lemma gLinForm_eq_sweepSpec (n0 : ℕ) (X : V) (eps : ℚ) (ballOp : DualOp)
    (hb : BallMatch n0 X eps ballOp) :
    ∀ (ops : List DualOp) (ls : List Layer) (nu : V),
      LinChainRel ls ops → gLinForm ballOp ops nu = sweepSpec n0 X eps ls nu := by
  intro ops
  induction ops with
  | nil =>
    intro ls nu h
    cases ls with
    | cons l t => exact False.elim h
    | nil =>
      obtain ⟨s, rfl, hn, heps, hx, _⟩ := hb
      show -(dot s.n nu (headV s.nu_x)) - s.epsilon * l1norm s.n nu = _
      rw [hn, heps, hx]
      rfl
  | cons op rest ih =>
    intro ls nu h
    cases ls with
    | nil => exact False.elim h
    | cons l t =>
      have h2 : LinMatch l op ∧ LinChainRel t rest := h
      rcases h2.1 with ⟨a1, a2, rfl, rfl⟩ | ⟨inF, outF, W, bo, bb, hk, hbias⟩
      · rw [show gLinForm ballOp (DualOp.reshapeOp :: rest) nu
            = DualOp.fvalDir .reshapeOp nu zeroV
              + gLinForm ballOp rest (stepT .reshapeOp nu) from rfl]
        rw [ih t (stepT .reshapeOp nu) h2.2]
        rfl
      · rcases hk with ⟨rfl, rfl⟩ | ⟨rfl, rfl⟩
        · rw [show gLinForm ballOp (DualOp.linear ⟨inF, outF, W, bb⟩ :: rest) nu
              = DualOp.fvalDir (.linear ⟨inF, outF, W, bb⟩) nu zeroV
                + gLinForm ballOp rest
                    (stepT (.linear ⟨inF, outF, W, bb⟩) nu) from rfl]
          rw [ih t (stepT (.linear ⟨inF, outF, W, bb⟩) nu) h2.2]
          rcases hbias with ⟨rfl, rfl⟩ | ⟨v, bl, rfl, rfl, hblne, hhd⟩
          · rfl
          · show -(dot outF nu (headV bl))
                + sweepSpec n0 X eps t (matvecT W outF nu)
                = sweepSpec n0 X eps (.linearL inF outF W (some v) :: t) nu
            rw [hhd]
            rfl
        · rw [show gLinForm ballOp (DualOp.convOp ⟨inF, outF, W, bb⟩ :: rest) nu
              = DualOp.fvalDir (.convOp ⟨inF, outF, W, bb⟩) nu zeroV
                + gLinForm ballOp rest
                    (stepT (.convOp ⟨inF, outF, W, bb⟩) nu) from rfl]
          rw [ih t (stepT (.convOp ⟨inF, outF, W, bb⟩) nu) h2.2]
          rcases hbias with ⟨rfl, rfl⟩ | ⟨v, bl, rfl, rfl, hblne, hhd⟩
          · rfl
          · show -(dot outF nu (headV bl))
                + sweepSpec n0 X eps t (matvecT W outF nu)
                = sweepSpec n0 X eps (.conv2dL inF outF W (some v) :: t) nu
            rw [hhd]
            rfl

/-- Claim C1: for a purely affine network (fully-connected, convolutional
and reshape layers, no ReLU), the bound evaluation g at an objective c
equals the closed form obtained by propagating -c through the transposed
affine map of every layer from the output end, summing each layer's bias
contribution -(direction . bias), and finishing with the uncertainty-set
term -(direction . x) - epsilon times the L1 norm of the direction, exactly
as computed by InfBall.fval. -/
theorem affine_g_closed_form (net : List Layer) (n0 : ℕ) (X : V) (eps : ℚ)
    (p : BuildParams) (c : V) (ch : List DualOp) (lst : DualOp)
    (hlin : ∀ l ∈ net, l.isAffineL = true)
    (hbuild : DualNetBounds net n0 X eps p = .ok (ch, some lst)) :
    g ch lst c = closedForm n0 X eps net c := by
  have hne : net ≠ [] := by
    intro h0
    subst h0
    simp [DualNetBounds, buildGo] at hbuild
  obtain ⟨b2, es2, hch, hball, hrel, hlast⟩ :=
    buildGo_lin n0 X eps p net [] 0
      (.ball ⟨n0, eps, [X], [eyeM n0]⟩) [] ch lst hlin
      ⟨⟨n0, eps, [X], [eyeM n0]⟩, rfl, rfl, rfl, rfl, by simp⟩
      True.intro hbuild
  subst hch
  have hrel2 : LinChainRel net.dropLast es2 := hrel
  have hsplit : net.dropLast ++ [net.getLastD (.unknownL (""))] = net :=
    dropLast_getLastD (.unknownL ("")) net hne
  have hrev : net.reverse
      = net.getLastD (.unknownL ("")) :: net.dropLast.reverse := by
    conv_lhs => rw [← hsplit]
    simp
  have h1 : g (b2 :: es2) lst c = gLinForm b2 (lst :: es2.reverse) (negV c) :=
    g_lin_eq b2 lst es2 c
      (linChainRel_readsLast net.dropLast es2 hrel2)
      (linMatch_readsLast _ lst hlast)
      (ballMatch_prev_free n0 X eps b2 hball)
  have h2 : gLinForm b2 (lst :: es2.reverse) (negV c)
      = sweepSpec n0 X eps
          (net.getLastD (.unknownL ("")) :: net.dropLast.reverse) (negV c) :=
    gLinForm_eq_sweepSpec n0 X eps b2 hball (lst :: es2.reverse)
      (net.getLastD (.unknownL ("")) :: net.dropLast.reverse) (negV c)
      ⟨hlast, linChainRel_reverse net.dropLast es2 hrel2⟩
  rw [h1, h2]
  unfold closedForm
  rw [hrev]

/-- Witness for affine_g_closed_form: a one-layer linear network with bias,
built and evaluated concretely. -/
theorem affine_g_closed_form_witness :
    (∀ l ∈ [Layer.linearL 1 1 (fun _ _ => (1 : ℚ)) (some (fun _ => 3))],
        l.isAffineL = true) ∧
    g [DualOp.ball ⟨1, 1, [fun _ => 2], [eyeM 1]⟩]
        (.linear ⟨1, 1, fun _ _ => 1, some [fun _ => 3]⟩) (fun _ => 1) =
      closedForm 1 (fun _ => 2) 1
        [Layer.linearL 1 1 (fun _ _ => 1) (some (fun _ => 3))] (fun _ => 1) :=
  ⟨by
      intro l hl
      rw [List.mem_singleton] at hl
      subst hl
      rfl,
   affine_g_closed_form
     [Layer.linearL 1 1 (fun _ _ => 1) (some (fun _ => 3))]
     1 (fun _ => 2) 1 ⟨none, "", none, none, fun _ => zeroM⟩ (fun _ => 1)
     [DualOp.ball ⟨1, 1, [fun _ => 2], [eyeM 1]⟩]
     (.linear ⟨1, 1, fun _ _ => 1, some [fun _ => 3]⟩)
     (by
       intro l hl
       rw [List.mem_singleton] at hl
       subst hl
       rfl)
     rfl⟩

end ConvexAdv
